import Mathlib

/-!
# Verification of the value- ingestion pipeline

Shallow embedding of the core ingestion-to-knowledge pipeline of the
repository (scraping/core/utils.py, scraping/core/extractor.py,
scraping/core/taxonomy_utils.py, scraping/canonical_indicators.py,
scraping/utils/indicator_matcher.py, agentic/tools/url_pick.py,
vectorization/upsert_embeddings.py), together with proofs and refutations
of the specified properties.

Modelling conventions, used throughout:
* Python `float` values are modelled as exact rationals (`ℚ`);
* Python `int` values as `ℤ`;
* Python strings as `List Char` (with `String` wrappers where convenient);
  character case operations use ASCII (plus Latin-1 where behaviour on
  French text matters and is modelled explicitly);
* `None` is modelled with `Option`;
* Python truthiness (`if x:`) on strings/ints/options is modelled by
  explicit `Truthy`-style tests (`"" `, `0`, `None` are falsy);
* file-system persistence is modelled by explicit state passing, and
  network/embedding back-ends (search results, HTTP liveness probes,
  vector stores) are oracle parameters, since they are external
  collaborators of the repository.
-/

/- Core marks the rational-number primitives `@[irreducible]`, which stops
`decide` from evaluating concrete rational arithmetic; re-mark them with
their ordinary reducibility so that concrete counterexamples and witnesses
evaluate.  Proofs are still checked by the kernel as usual. -/
set_option allowUnsafeReducibility true in
attribute [semireducible] Rat.sub Rat.add Rat.mul Rat.div Rat.inv Rat.neg Rat.blt

namespace ValuePipeline

/-! ## Python truthiness helpers -/

/-- Truthiness of an optional Python int (`None` and `0` are falsy). -/
def truthyInt : Option ℤ → Bool
  | none => false
  | some y => y != 0

/-- Truthiness of an optional Python string (`None` and `""` are falsy). -/
def truthyStr : Option String → Bool
  | none => false
  | some s => s != ""

/-! ## scraping/core/utils.py : `score_confidence` (lines 81-97)

```python
def score_confidence(matched, year, value, unit):
    score = 0
    if matched:
        score += 30
    if year and 1970 <= year <= 2050:
        score += 25
    if value is not None and year and value == year:
        score += -50 if unit is None else -10
    if value is not None and value != 0.0:
        score += 30
        if 0 < value < 1 and unit not in ["%", "TND", "USD", "EUR"]:
            score -= 10
        elif value < 10 and not unit:
            score -= 15
    if unit:
        score += 20 if unit in ["%", "USD", "TND", "EUR"] else 10
    return max(min(score, 100), 0)
```
-/

/-- Condition `year and 1970 <= year <= 2050` (truthiness of `year` plus range). -/
def yearPlausible : Option ℤ → Prop
  | none => False
  | some y => y ≠ 0 ∧ 1970 ≤ y ∧ y ≤ 2050

instance : (year : Option ℤ) → Decidable (yearPlausible year)
  | none => inferInstanceAs (Decidable False)
  | some y => inferInstanceAs (Decidable (y ≠ 0 ∧ 1970 ≤ y ∧ y ≤ 2050))

/-- Condition `value is not None and year and value == year`
(`year` must be truthy, and Python compares the float to the int). -/
def valueEqYear : Option ℚ → Option ℤ → Prop
  | some v, some y => y ≠ 0 ∧ v = (y : ℚ)
  | _, _ => False

instance : (value : Option ℚ) → (year : Option ℤ) → Decidable (valueEqYear value year)
  | some v, some y => inferInstanceAs (Decidable (y ≠ 0 ∧ v = (y : ℚ)))
  | some _, none => inferInstanceAs (Decidable False)
  | none, _ => inferInstanceAs (Decidable False)

/-- Membership `unit in ["%", "TND", "USD", "EUR"]` (`None` is in neither list; the
source writes the same four-element list twice, once as
`["%", "TND", "USD", "EUR"]` and once as `["%", "USD", "TND", "EUR"]`;
membership is identical). -/
def unitRecognized : Option String → Prop
  | none => False
  | some u => u = "%" ∨ u = "TND" ∨ u = "USD" ∨ u = "EUR"

instance : (unit : Option String) → Decidable (unitRecognized unit)
  | none => inferInstanceAs (Decidable False)
  | some u => inferInstanceAs (Decidable (u = "%" ∨ u = "TND" ∨ u = "USD" ∨ u = "EUR"))

/-- The `value != 0.0` block of `score_confidence` (`+30`, with the two
penalty branches). -/
def valueTerm (value : Option ℚ) (unit : Option String) : ℤ :=
  match value with
  | some v =>
      if v ≠ 0 then
        30 + (if 0 < v ∧ v < 1 ∧ ¬ unitRecognized unit then -10
              else if v < 10 ∧ ¬ (truthyStr unit = true) then -15 else 0)
      else 0
  | none => 0

/-- Embedding of `score_confidence` from scraping/core/utils.py lines 81-97. -/
def score_confidence (matched : Bool) (year : Option ℤ) (value : Option ℚ)
    (unit : Option String) : ℤ :=
  max (min
    ((if matched then 30 else 0)
      + (if yearPlausible year then 25 else 0)
      + (if valueEqYear value year then (if unit = none then -50 else -10) else 0)
      + valueTerm value unit
      + (if truthyStr unit = true then (if unitRecognized unit then 20 else 10) else 0))
    100) 0

/-! ## Python string primitives

Characters are Lean `Char`; case mapping is modelled on ASCII plus the
Latin-1 letters (the repository processes French text), where Python
`str.lower` adds 32 to `À`..`Þ` (except `×`).  Whitespace is the ASCII
whitespace set plus NBSP and NNBSP, the characters the source itself
handles. -/

/-- Model of Python `str.lower` on one character (ASCII + Latin-1). -/
def pyLowerChar (c : Char) : Char :=
  if 65 ≤ c.toNat ∧ c.toNat ≤ 90 then Char.ofNat (c.toNat + 32)
  else if 0xC0 ≤ c.toNat ∧ c.toNat ≤ 0xDE ∧ c.toNat ≠ 0xD7 then Char.ofNat (c.toNat + 32)
  else c

/-- Model of Python `str.lower`. -/
def pyLower (s : String) : String := ⟨s.data.map pyLowerChar⟩

/-- Model of Python `str.isspace` on one character. -/
def pyIsSpace (c : Char) : Bool :=
  c.toNat = 32 ∨ c.toNat = 9 ∨ c.toNat = 10 ∨ c.toNat = 13 ∨ c.toNat = 11 ∨
    c.toNat = 12 ∨ c.toNat = 0xA0 ∨ c.toNat = 0x202F

/-- Model of Python `str.strip` (no argument: strip whitespace) on char lists. -/
def pyStripList (l : List Char) : List Char :=
  ((l.dropWhile pyIsSpace).reverse.dropWhile pyIsSpace).reverse

/-- Model of Python `str.strip`. -/
def pyStrip (s : String) : String := ⟨pyStripList s.data⟩

/-- Model of Python `a or b` on strings (returns `b` when `a` is falsy,
i.e. empty). -/
def pyOrS (a b : String) : String := if a = "" then b else a

/-! ## difflib.SequenceMatcher ratio (used by `remove_duplicates`,
scraping/core/utils.py line 72: `SequenceMatcher(None, x, y).ratio()`)

Faithful model of CPython difflib with `isjunk=None`: the junk set is
empty, so the two junk-extension loops of `find_longest_match` never run
and `not isbjunk(...)` in the plain extension loops is always true.  The
`autojunk` heuristic (for `len(b) >= 200`, characters occurring more than
`len(b)//100 + 1` times are removed from the index `b2j`) is included.
Recursion in `get_matching_blocks` is modelled with explicit fuel
`len(a)+len(b)+1`, which strictly exceeds the recursion depth (each
recursive call strictly shrinks `(ahi-alo)+(bhi-blo)`). -/

/-- Lookup in an association list with natural keys. -/
def assocGetNat (m : List (ℕ × ℕ)) (k : ℕ) : ℕ :=
  match m.find? (fun p => p.1 = k) with
  | some p => p.2
  | none => 0

/-- Index map `b2j` of difflib (character to ascending list of positions
in `b`), before the autojunk filter. -/
def b2jRaw (b : List Char) : List (Char × List ℕ) :=
  (b.enum.foldl
    (fun m ic =>
      match m.find? (fun p => p.1 = ic.2) with
      | some _ => m.map (fun p => if p.1 = ic.2 then (p.1, p.2 ++ [ic.1]) else p)
      | none => m ++ [(ic.2, [ic.1])])
    ([] : List (Char × List ℕ)))

/-- Index map `b2j` after the autojunk filter (`len(b) >= 200` removes
popular characters). -/
def b2j (b : List Char) : List (Char × List ℕ) :=
  let raw := b2jRaw b
  if 200 ≤ b.length then
    raw.filter (fun p => ¬ (b.length / 100 + 1 < p.2.length))
  else raw

/-- Positions of character `c` in `b` according to the `b2j` map. -/
def b2jGet (m : List (Char × List ℕ)) (c : Char) : List ℕ :=
  match m.find? (fun p => p.1 = c) with
  | some p => p.2
  | none => []

/-- One row of the `find_longest_match` dynamic programming loop
(the `for j in b2j.get(a[i], nothing)` loop with its
`continue`/`break` on the window `[blo, bhi)`).  Returns the new `j2len`
and the updated best triple `(besti, bestj, bestsize)`. -/
def flmRow (blo bhi i : ℕ) (j2len : List (ℕ × ℕ)) :
    List ℕ → List (ℕ × ℕ) → ℕ × ℕ × ℕ → List (ℕ × ℕ) × (ℕ × ℕ × ℕ)
  | [], newj2len, best => (newj2len, best)
  | j :: js, newj2len, best =>
      if j < blo then flmRow blo bhi i j2len js newj2len best
      else if bhi ≤ j then (newj2len, best)
      else
        let k := (if j = 0 then 0 else assocGetNat j2len (j - 1)) + 1
        let newj2len := (j, k) :: newj2len
        let best := if best.2.2 < k then (i + 1 - k, j + 1 - k, k) else best
        flmRow blo bhi i j2len js newj2len best

/-- The main `for i in range(alo, ahi)` loop of `find_longest_match`. -/
def flmLoop (a : List Char) (bj : List (Char × List ℕ)) (blo bhi : ℕ) :
    List ℕ → List (ℕ × ℕ) → ℕ × ℕ × ℕ → ℕ × ℕ × ℕ
  | [], _, best => best
  | i :: is, j2len, best =>
      let (newj2len, best) := flmRow blo bhi i j2len (b2jGet bj (a.getD i ' ')) [] best
      flmLoop a bj blo bhi is newj2len best

/-- Leftwards extension loop of `find_longest_match` (junk set empty). -/
def flmExtendLeft (a b : List Char) (alo blo : ℕ) :
    ℕ → ℕ × ℕ × ℕ → ℕ × ℕ × ℕ
  | 0, best => best
  | fuel + 1, (besti, bestj, bestk) =>
      if alo < besti ∧ blo < bestj ∧ a.getD (besti - 1) ' ' = b.getD (bestj - 1) '!' then
        flmExtendLeft a b alo blo fuel (besti - 1, bestj - 1, bestk + 1)
      else (besti, bestj, bestk)

/-- Rightwards extension loop of `find_longest_match` (junk set empty). -/
def flmExtendRight (a b : List Char) (ahi bhi : ℕ) :
    ℕ → ℕ × ℕ × ℕ → ℕ × ℕ × ℕ
  | 0, best => best
  | fuel + 1, (besti, bestj, bestk) =>
      if besti + bestk < ahi ∧ bestj + bestk < bhi ∧
          a.getD (besti + bestk) ' ' = b.getD (bestj + bestk) '!' then
        flmExtendRight a b ahi bhi fuel (besti, bestj, bestk + 1)
      else (besti, bestj, bestk)

/-- Model of `SequenceMatcher.find_longest_match` on the window
`[alo, ahi) x [blo, bhi)` (junk set empty, `b2j` already filtered). -/
def findLongestMatch (a b : List Char) (bj : List (Char × List ℕ))
    (alo ahi blo bhi : ℕ) : ℕ × ℕ × ℕ :=
  let best := flmLoop a bj blo bhi (List.range' alo (ahi - alo)) [] (alo, blo, 0)
  let best := flmExtendLeft a b alo blo (best.1 - alo) best
  flmExtendRight a b ahi bhi (ahi - (best.1 + best.2.2)) best

/-- Total size of the matching blocks of `get_matching_blocks`
(the queue recursion, written with fuel; block order does not matter for
the total). -/
def matchTotal (a b : List Char) (bj : List (Char × List ℕ)) :
    ℕ → ℕ → ℕ → ℕ → ℕ → ℕ
  | 0, _, _, _, _ => 0
  | fuel + 1, alo, ahi, blo, bhi =>
      let (i, j, k) := findLongestMatch a b bj alo ahi blo bhi
      if k = 0 then 0
      else k + matchTotal a b bj fuel alo i blo j + matchTotal a b bj fuel (i + k) ahi (j + k) bhi

/-- Model of `SequenceMatcher(None, a, b).ratio()`
(`2.0 * matches / (len(a)+len(b))`, and `1.0` when both are empty). -/
def sequenceMatcherRatio (a b : List Char) : ℚ :=
  let m := matchTotal a b (b2j b) (a.length + b.length + 1) 0 a.length 0 b.length
  if a.length + b.length ≠ 0 then 2 * m / (a.length + b.length) else 1

/-! ## Observation records

Records flowing through `remove_duplicates` / `merge_across_runs`
(scraping/core/utils.py, scraping/core/extractor.py) are Python dicts.
The embedding fixes the fields these functions read.  A missing or empty
string field is modelled as `""` (both are falsy in the `or`-chains of
`make_key`); `DateISO` and `Year` keep an `Option` since `make_key` can
produce `None` for the date component.  `Value` is a plain rational:
`remove_duplicates` computes `abs(existing["Value"] - entry["Value"])`,
which requires a numeric value (pipeline records have passed
`is_valid_entry`, which rejects `Value is None`). -/

structure Obs where
  canonicalIndicator : String
  indicator : String
  dateISO : Option String
  year : Option ℤ
  value : ℚ
  unit : String
  sourceURL : String
  source : String
  rawText : String
  confidence : ℤ
deriving DecidableEq

/-! ## scraping/core/utils.py : `remove_duplicates` (lines 62-79)

```python
def remove_duplicates(entries):
    seen = []
    unique = []
    for entry in entries:
        is_duplicate = False
        for existing in seen:
            if (
                existing["Indicator"].lower() == entry["Indicator"].lower() and
                existing["Year"] == entry["Year"] and
                abs(existing["Value"] - entry["Value"]) < 0.5 and
                SequenceMatcher(None, existing["RawText"], entry["RawText"]).ratio() > 0.85
            ):
                is_duplicate = True
                break
        if not is_duplicate:
            seen.append(entry)
            unique.append(entry)
    return unique
```

Note `seen` and `unique` receive exactly the same appends and remain
equal throughout; the embedding keeps a single list. -/

/-- The near-duplicate test of `remove_duplicates` (lines 68-73). -/
def isDup (existing entry : Obs) : Bool :=
  (pyLower existing.indicator == pyLower entry.indicator) &&
  (existing.year == entry.year) &&
  (decide (|existing.value - entry.value| < 1/2)) &&
  (decide (sequenceMatcherRatio existing.rawText.data entry.rawText.data > 85/100))

/-- One step of the `for entry in entries` loop, generic in the duplicate
test. -/
def dedupStep {α : Type} (dup : α → α → Bool) (acc : List α) (e : α) : List α :=
  if acc.any (fun s => dup s e) then acc else acc ++ [e]

/-- The `remove_duplicates` loop started from an arbitrary `seen` list. -/
def dedupFrom {α : Type} (dup : α → α → Bool) (acc : List α) (l : List α) : List α :=
  l.foldl (dedupStep dup) acc

/-- Generic form of `remove_duplicates`. -/
def removeDuplicatesBy {α : Type} (dup : α → α → Bool) (entries : List α) : List α :=
  dedupFrom dup [] entries

/-- Embedding of `remove_duplicates` from scraping/core/utils.py lines 62-79. -/
def remove_duplicates (entries : List Obs) : List Obs :=
  removeDuplicatesBy isDup entries

/-! ## scraping/core/extractor.py : `merge_across_runs` (lines 329-344)

```python
def merge_across_runs(existing, new_items):
    def make_key(r):
        return (
            (r.get("CanonicalIndicator") or r.get("Indicator") or "").strip().lower(),
            r.get("DateISO") or r.get("Year"),
            r.get("Value"),
            (r.get("Unit") or "").strip().lower(),
            (r.get("SourceURL") or r.get("Source") or "").strip().lower(),
        )
    merged_map = {}
    for item in existing:
        merged_map[make_key(item)] = item
    for item in new_items:
        merged_map[make_key(item)] = item
    return list(merged_map.values())
```

The Python dict is modelled as an association list: assignment to a
present key replaces the value in place, assignment to a fresh key
appends, and `values()` lists the values in key insertion order —
exactly the semantics of an insertion-ordered dict. -/

/-- Date component `r.get("DateISO") or r.get("Year")` of the stable key:
a Python object that is either a string, an int, or `None` (an empty
`DateISO` is falsy and falls through to `Year`). -/
def dateOrYear (r : Obs) : Option (String ⊕ ℤ) :=
  match r.dateISO with
  | some s => if s ≠ "" then some (Sum.inl s) else r.year.map Sum.inr
  | none => r.year.map Sum.inr

/-- Stable key of `merge_across_runs` (extractor.py lines 330-337).
Note the `Value` component is `r.get("Value")` itself — the exact value,
with no rounding. -/
def make_key (r : Obs) : String × Option (String ⊕ ℤ) × ℚ × String × String :=
  (pyLower (pyStrip (pyOrS r.canonicalIndicator r.indicator)),
   dateOrYear r,
   r.value,
   pyLower (pyStrip r.unit),
   pyLower (pyStrip (pyOrS r.sourceURL r.source)))

/-- One dict assignment `merged_map[key r] = r`, generic in the key. -/
def upsertAssoc {α κ : Type} [DecidableEq κ] (key : α → κ)
    (m : List (κ × α)) (r : α) : List (κ × α) :=
  if m.any (fun p => p.1 = key r) then
    m.map (fun p => if p.1 = key r then (key r, r) else p)
  else m ++ [(key r, r)]

/-- Generic form of `merge_across_runs`. -/
def mergeBy {α κ : Type} [DecidableEq κ] (key : α → κ)
    (existing new_items : List α) : List α :=
  ((existing ++ new_items).foldl (upsertAssoc key) []).map Prod.snd

/-- Embedding of `merge_across_runs` from extractor.py lines 329-344. -/
def merge_across_runs (existing new_items : List Obs) : List Obs :=
  mergeBy make_key existing new_items

/-! ## scraping/utils/indicator_matcher.py : `extract_value` (lines 246-290)

```python
def extract_value(text):
    t = (text or "").lower().replace(" ", " ").replace("\xa0", " ")
    pattern = r"(\d{1,3}(?:[\s.,]\d{3})+|\d+(?:[.,]\d+)?)(\s?(%|percent|tnd|usd|eur|dinar[s]?|euros?|dollars?|million[s]?|billion[s]?|thousand[s]?|milliers|milliard[s]?))?"
    m = re.search(pattern, t)
    if not m:
        return None, None
    raw = m.group(1)
    unit = (m.group(3) or "").strip().lower() or None
    raw = raw.replace(" ", "").replace(" ", "").replace(",", ".")
    try:
        val = float(raw)
    except ValueError:
        return None, None
    if 1900 <= val <= 2099 and unit is None and not re.search(r"\b(as of|since|in|year|from|to|during|forecast|projected|between|by)\b", t):
        return None, None
    if unit:
        ...normalization...
    return val, unit
```

The regex is modelled by hand with Python re semantics: the whole pattern
can only start at a digit and any digit starts a match of the second
group-1 alternative, so the leftmost match starts at the first digit.
Group 1 tries the thousands-separated alternative
`\d{1,3}(?:[\s.,]\d{3})+` first (greedy, with backtracking this succeeds
exactly when the initial digit run has length at most 3 and at least one
`separator + 3 digits` block follows), then plain `\d+(?:[.,]\d+)?`.
Group 2 is optional: a greedy `\s?` followed by the unit alternation in
source order (first alternative wins; `[s]?`/`s?` greedy).  Character
classes `\s`, `\d`, `\w` are modelled on ASCII (plus the NBSP/NNBSP
whitespace the source itself replaces, and Latin-1 word letters). -/

/-- Decision for the digit at position `i` (out of range counts as
non-digit). -/
def digitAt (l : List Char) (i : ℕ) : Bool :=
  match l.get? i with
  | some c => c.isDigit
  | none => false

/-- Length of the consecutive digit run starting at position `i`. -/
def countDigits (l : List Char) (i : ℕ) : ℕ :=
  ((l.drop i).takeWhile Char.isDigit).length

/-- Separator class `[\s.,]` of the group-1 thousands alternative. -/
def sepClass (c : Char) : Bool := pyIsSpace c || c = '.' || c = ','

/-- Greedy count of `(?:[\s.,]\d{3})` repetitions starting at `j`
(fuel-recursive; each repetition consumes 4 characters). -/
def repCount (l : List Char) : ℕ → ℕ → ℕ
  | _, 0 => 0
  | j, fuel + 1 =>
      match l.get? j with
      | some c =>
          if sepClass c ∧ digitAt l (j + 1) ∧ digitAt l (j + 2) ∧ digitAt l (j + 3) then
            1 + repCount l (j + 4) fuel
          else 0
      | none => 0

/-- Group 1 of the `extract_value` pattern, matched at digit position
`p`: returns the matched substring and the end position. -/
def parseGroup1 (l : List Char) (p : ℕ) : List Char × ℕ :=
  let run := countDigits l p
  let reps := repCount l (p + run) l.length
  if run ≤ 3 ∧ 1 ≤ reps then
    ((l.drop p).take (run + 4 * reps), p + run + 4 * reps)
  else
    match l.get? (p + run) with
    | some c =>
        if (c = '.' ∨ c = ',') ∧ 1 ≤ countDigits l (p + run + 1) then
          let run2 := countDigits l (p + run + 1)
          ((l.drop p).take (run + 1 + run2), p + run + 1 + run2)
        else ((l.drop p).take run, p + run)
    | none => ((l.drop p).take run, p + run)

/-- The unit alternation of group 3, in source order; the flag marks a
greedy optional trailing `s`. -/
def unitAlts : List (List Char × Bool) :=
  [("%".data, false), ("percent".data, false), ("tnd".data, false), ("usd".data, false),
   ("eur".data, false), ("dinar".data, true), ("euro".data, true), ("dollar".data, true),
   ("million".data, true), ("billion".data, true), ("thousand".data, true),
   ("milliers".data, false), ("milliard".data, true)]

/-- First unit alternative matching at position `i` (ordered alternation,
greedy optional `s`). -/
def tryUnitAt (t : List Char) (i : ℕ) : Option (List Char) :=
  unitAlts.findSome? (fun la =>
    if la.1.isPrefixOf (t.drop i) then
      some (if la.2 ∧ t.get? (i + la.1.length) = some 's' then la.1 ++ ['s'] else la.1)
    else none)

/-- Group 2 (`\s?(unit-alternation)`) matched at the end position of
group 1: greedy `\s?` prefers consuming one whitespace, backtracking to
the empty match. -/
def group2Unit (t : List Char) (e : ℕ) : Option (List Char) :=
  match t.get? e with
  | some c =>
      if pyIsSpace c then
        match tryUnitAt t (e + 1) with
        | some u => some u
        | none => tryUnitAt t e
      else tryUnitAt t e
  | none => none

/-- Preprocessing `(text or "").lower().replace(" ", " ").replace("\xa0", " ")`. -/
def evPreprocess (text : List Char) : List Char :=
  (text.map pyLowerChar).map (fun c => if c.toNat = 0x202F ∨ c.toNat = 0xA0 then ' ' else c)

/-- Cleaning of the raw number
(`raw.replace(" ", "").replace(" ", "").replace(",", ".")`). -/
def cleanRaw (raw : List Char) : List Char :=
  (raw.filter (fun c => ¬ (c = ' ' ∨ c.toNat = 0x202F))).map
    (fun c => if c = ',' then '.' else c)

/-- Numeric value of a digit list. -/
def digitsToNat (l : List Char) : ℕ :=
  l.foldl (fun n c => 10 * n + (c.toNat - 48)) 0

/-- Model of Python `float(raw)` on the character set reachable here
(digits, dots, and whitespace separators that survived cleaning): it
succeeds when there is at least one digit, every character is a digit or
a dot, and there is at most one dot. -/
def pyFloatParse (l : List Char) : Option ℚ :=
  if l.any Char.isDigit ∧ l.all (fun c => c.isDigit ∨ c = '.') ∧ l.count '.' ≤ 1 then
    let ip := l.takeWhile (fun c => c ≠ '.')
    let fp := (l.dropWhile (fun c => c ≠ '.')).drop 1
    some ((digitsToNat ip : ℚ) + (digitsToNat fp : ℚ) / (10 ^ fp.length))
  else none

/-- Word character for Python `\b` (ASCII alphanumerics, underscore, and
Latin-1 letters). -/
def isWordChar (c : Char) : Bool :=
  c.isAlphanum ∨ c = '_' ∨
    (0xC0 ≤ c.toNat ∧ c.toNat ≤ 0xFF ∧ c.toNat ≠ 0xD7 ∧ c.toNat ≠ 0xF7)

/-- Whether word `w` matches at position `i` with `\b` on both sides. -/
def wordBoundaryAt (t : List Char) (i : ℕ) (w : List Char) : Bool :=
  w.isPrefixOf (t.drop i) &&
    (decide (i = 0) || ! isWordChar (t.getD (i - 1) ' ')) &&
    (match t.get? (i + w.length) with
     | some c => ! isWordChar c
     | none => true)

/-- The temporal-cue alternation of line 268. -/
def temporalWords : List (List Char) :=
  ["as of", "since", "in", "year", "from", "to", "during", "forecast",
   "projected", "between", "by"].map String.data

/-- Model of
`re.search(r"\b(as of|since|in|year|from|to|during|forecast|projected|between|by)\b", t)`. -/
def hasTemporalCue (t : List Char) : Bool :=
  (List.range t.length).any (fun i => temporalWords.any (fun w => wordBoundaryAt t i w))

/-- Substring containment (Python `needle in hay`). -/
def strContains (hay needle : List Char) : Bool :=
  hay.tails.any (fun s => needle.isPrefixOf s)

/-- The unit-normalization cascade of `extract_value` (lines 271-288),
returning the possibly scaled value and the final unit. -/
def normalizeUnitVal (val : ℚ) (u : List Char) : ℚ × Option String :=
  if u = "percent".data ∨ u = "%".data then (val, some "%")
  else if strContains u "dinar".data ∨ u = "tnd".data then (val, some "TND")
  else if u = "usd".data ∨ strContains u "dollar".data then (val, some "USD")
  else if u = "eur".data ∨ strContains u "euro".data then (val, some "EUR")
  else if strContains u "billion".data ∨ strContains u "milliard".data ∨
      strContains u "milliards".data then (val * 1000000000, some "USD")
  else if strContains u "million".data ∨ strContains u "millions".data then
    (val * 1000000, some "USD")
  else if strContains u "thousand".data ∨ strContains u "milliers".data then
    (val * 1000, some "USD")
  else (val, some (String.mk u))

/-- Embedding of `extract_value` from indicator_matcher.py lines 246-290. -/
def extract_value (text : String) : Option ℚ × Option String :=
  let t := evPreprocess text.data
  match t.findIdx? Char.isDigit with
  | none => (none, none)
  | some p =>
      let g1 := parseGroup1 t p
      let unitRaw := group2Unit t g1.2
      match pyFloatParse (cleanRaw g1.1) with
      | none => (none, none)
      | some val =>
          if 1900 ≤ val ∧ val ≤ 2099 ∧ unitRaw = none ∧ ¬ (hasTemporalCue t = true) then
            (none, none)
          else
            match unitRaw with
            | none => (some val, none)
            | some u => (some (normalizeUnitVal val u).1, (normalizeUnitVal val u).2)

/-! ## scraping/core/taxonomy_utils.py and scraping/canonical_indicators.py

State: the taxonomy file `economic_indicator.json` (a list of
`{"Canonical Name": ..., "Aliases": [...]}` entries) and the alias map
`utils/canonical_indicators.json` (normalized alias -> canonical; the
builder also stores a category, which `ensure_indicator_and_alias` never
reads, so the embedding keeps only the canonical).  File persistence is
modelled by explicit state passing;
`rebuild_canonical_map_if_possible` is modelled as always succeeding
(the builder script is part of the repository), i.e. after each mutation
the alias map is the builder output for the current taxonomy. -/

/-- Model of Python `str.upper` on one character (ASCII + Latin-1;
`ß` and `ÿ`, whose Python uppercase leaves Latin-1, are left as-is). -/
def pyUpperChar (c : Char) : Char :=
  if 97 ≤ c.toNat ∧ c.toNat ≤ 122 then Char.ofNat (c.toNat - 32)
  else if 0xE0 ≤ c.toNat ∧ c.toNat ≤ 0xFE ∧ c.toNat ≠ 0xF7 ∧ c.toNat ≠ 0xDF then
    Char.ofNat (c.toNat - 32)
  else c

/-- Cased letter (ASCII or Latin-1), for Python `str.title`. -/
def isCasedLetter (c : Char) : Bool :=
  c.isAlpha ∨ (0xC0 ≤ c.toNat ∧ c.toNat ≤ 0xFF ∧ c.toNat ≠ 0xD7 ∧ c.toNat ≠ 0xF7)

/-- Model of Python `str.isalnum` on one character (ASCII + Latin-1). -/
def pyIsAlnum (c : Char) : Bool :=
  c.isAlphanum ∨ (0xC0 ≤ c.toNat ∧ c.toNat ≤ 0xFF ∧ c.toNat ≠ 0xD7 ∧ c.toNat ≠ 0xF7)

/-- Model of Python `str.title` (uppercase a cased letter after a
non-cased character, lowercase a cased letter after a cased one). -/
def pyTitleGo : List Char → Bool → List Char
  | [], _ => []
  | c :: cs, prevCased =>
      (if isCasedLetter c then (if prevCased then pyLowerChar c else pyUpperChar c) else c)
        :: pyTitleGo cs (isCasedLetter c)

/-- Model of Python `str.title`. -/
def pyTitle (s : String) : String := ⟨pyTitleGo s.data false⟩

/-- The `_norm` of taxonomy_utils.py line 64-65:
`"".join(c for c in (s or "").lower().strip() if c.isalnum() or c.isspace())`. -/
def pyNorm (s : String) : String :=
  ⟨(pyStripList (s.data.map pyLowerChar)).filter (fun c => pyIsAlnum c || pyIsSpace c)⟩

/-- One-character ASCII fold-then-lowercase for the builder `normalize`
(`unicodedata.normalize("NFKD", ...).encode("ascii", "ignore")` followed
by `.lower()`): ASCII characters pass through lowercased, Latin-1
accented letters decompose to their lowercased base letter, every other
non-ASCII character is dropped. -/
def asciiFoldLower (c : Char) : List Char :=
  if c.toNat < 128 then [pyLowerChar c]
  else
    let n := c.toNat
    if (0xC0 ≤ n ∧ n ≤ 0xC5) ∨ (0xE0 ≤ n ∧ n ≤ 0xE5) then ['a']
    else if n = 0xC7 ∨ n = 0xE7 then ['c']
    else if (0xC8 ≤ n ∧ n ≤ 0xCB) ∨ (0xE8 ≤ n ∧ n ≤ 0xEB) then ['e']
    else if (0xCC ≤ n ∧ n ≤ 0xCF) ∨ (0xEC ≤ n ∧ n ≤ 0xEF) then ['i']
    else if n = 0xD1 ∨ n = 0xF1 then ['n']
    else if (0xD2 ≤ n ∧ n ≤ 0xD6) ∨ (0xF2 ≤ n ∧ n ≤ 0xF6) then ['o']
    else if (0xD9 ≤ n ∧ n ≤ 0xDC) ∨ (0xF9 ≤ n ∧ n ≤ 0xFC) then ['u']
    else if n = 0xDD ∨ n = 0xFD ∨ n = 0xFF then ['y']
    else []

/-- The builder `normalize` of canonical_indicators.py lines 5-6
(NFKD fold to ASCII, lowercase, strip; fold and lowercase commute with
concatenation, so the per-character fold is already lowercased). -/
def buildNorm (s : String) : String :=
  ⟨pyStripList (s.data.flatMap asciiFoldLower)⟩

/-- The `title_case_indicator` of canonical_indicators.py lines 8-9:
`" ".join(word.capitalize() for word in name.strip().split())`. -/
def pyCapitalize (w : List Char) : List Char :=
  match w with
  | [] => []
  | c :: cs => pyUpperChar c :: cs.map pyLowerChar

/-- Python `str.split()` with no argument: split on whitespace runs,
dropping empty chunks. -/
def pySplitWs (l : List Char) : List (List Char) :=
  (l.splitOnP (fun c => pyIsSpace c)).filter (fun w => w ≠ [])

/-- Embedding of `title_case_indicator` (canonical_indicators.py 8-9). -/
def title_case_indicator (name : String) : String :=
  ⟨List.intercalate [' '] ((pySplitWs (pyStripList name.data)).map pyCapitalize)⟩

/-- A taxonomy entry (`Canonical Name` + `Aliases`). -/
structure TaxEntry where
  canonicalName : String
  aliases : List String
deriving DecidableEq, Inhabited

/-- The persistent taxonomy state: the singular taxonomy file and the
alias map produced by the builder. -/
structure TaxState where
  taxonomy : List TaxEntry
  aliasMap : List (String × String)
deriving DecidableEq

/-- Lookup in the alias map (`key in alias_map` /
`alias_map[key].get("canonical", raw)`; builder entries always carry a
canonical). -/
def lookupMap (m : List (String × String)) (k : String) : Option String :=
  (m.find? (fun p => p.1 = k)).map Prod.snd

/-- The builder loop of canonical_indicators.py lines 94-112: for each
entry with a non-empty stripped canonical name, insert
`normalize(alias) -> title_case_indicator(canonical_raw)` for every
alias and for the raw canonical itself, first occurrence winning. -/
def insertIfNew (m : List (String × String)) (kv : String × String) :
    List (String × String) :=
  if m.any (fun p => p.1 = kv.1) then m else m ++ [kv]

/-- The builder loop as a fold of first-wins insertions. -/
def rebuildAliasMap (tax : List TaxEntry) : List (String × String) :=
  tax.foldl
    (fun m item =>
      let craw := pyStrip item.canonicalName
      if craw = "" then m
      else
        (item.aliases ++ [craw]).foldl
          (fun m al => insertIfNew m (buildNorm al, title_case_indicator craw))
          m)
    []

/-- The key/canonical pair stream the builder feeds to its first-wins
insertion, in order (proof auxiliary characterizing `rebuildAliasMap`). -/
def buildStream (tax : List TaxEntry) : List (String × String) :=
  tax.flatMap (fun item =>
    if pyStrip item.canonicalName = "" then []
    else (item.aliases ++ [pyStrip item.canonicalName]).map
      (fun al => (buildNorm al, title_case_indicator (pyStrip item.canonicalName))))

/-- The LCS row update for the rapidfuzz indel similarity
(`fuzz.ratio`), one cell at a time: `diag` is the previous-row value at
the current column, `left` the freshly computed value to the left. -/
def lcsGo (c : Char) : List Char → List ℕ → ℕ → ℕ → List ℕ
  | [], _, _, _ => []
  | _, [], _, _ => []
  | bj :: bs, pv :: pvs, diag, left =>
      let cur := if bj = c then diag + 1 else max left pv
      cur :: lcsGo c bs pvs pv cur

/-- One row of the LCS dynamic program. -/
def lcsFold (b : List Char) (row : List ℕ) (c : Char) : List ℕ :=
  0 :: lcsGo c b (row.drop 1) (row.headD 0) 0

/-- Length of a longest common subsequence (row dynamic program). -/
def lcsLen (a b : List Char) : ℕ :=
  ((a.foldl (lcsFold b) (List.replicate (b.length + 1) 0)).getLast?).getD 0

/-- Model of `rapidfuzz.fuzz.ratio` (indel similarity):
`100 * (1 - indel_distance/(len1+len2)) = 100 * 2 * lcs / (len1+len2)`,
and `100.0` when both strings are empty. -/
def fuzzRatio (a b : String) : ℚ :=
  if a.data.length + b.data.length = 0 then 100
  else 100 * (2 * lcsLen a.data b.data) / (a.data.length + b.data.length)

/-- The fuzzy scan of taxonomy_utils.py lines 91-98: best canonical name
by `fuzz.ratio(_norm(cname), key)` with strict improvement, skipping
entries whose stripped canonical name is empty (`rapidfuzz` is modelled
as installed, so `fuzz` is truthy). -/
def fuzzStep (key : String) (acc : Option String × ℚ) (item : TaxEntry) :
    Option String × ℚ :=
  let cname := pyStrip item.canonicalName
  if cname = "" then acc
  else
    let score := fuzzRatio (pyNorm cname) key
    if acc.2 < score then (some cname, score) else acc

/-- The fuzzy scan as a fold of scoring steps. -/
def fuzzBest (tax : List TaxEntry) (key : String) : Option String × ℚ :=
  tax.foldl (fuzzStep key) (none, -1)

/-- The step-3 branch of `ensure_indicator_and_alias` (lines 112-120):
create a brand-new canonical `raw.title()` with `raw` as first alias,
save, and rebuild the alias map. -/
def createNewCanonical (raw : String) (S : TaxState) : String × Bool × TaxState :=
  let newC := pyTitle raw
  let tax2 := S.taxonomy ++ [⟨newC, [raw]⟩]
  (newC, true, ⟨tax2, rebuildAliasMap tax2⟩)

/-- Embedding of `ensure_indicator_and_alias` from taxonomy_utils.py
lines 68-120.  Returns `(canonical, changed, next state)`.  The Python
set-union `list(aliases | {raw})` is modelled as an append when absent
(membership-equivalent); a failed fuzzy loop over `singular` without a
matching item falls through to step 3, exactly as in the source. -/
def ensure_indicator_and_alias (al : String) (S : TaxState) : String × Bool × TaxState :=
  let raw := pyStrip al
  if raw = "" then ("", false, S)
  else
    let key := pyNorm raw
    match lookupMap S.aliasMap key with
    | some c => (c, false, S)
    | none =>
        let best := fuzzBest S.taxonomy key
        match best.1 with
        | some bestName =>
            if 88 ≤ best.2 then
              match S.taxonomy.findIdx?
                  (fun it => pyLower (pyStrip it.canonicalName) = pyLower bestName) with
              | some i =>
                  let it := S.taxonomy.getD i default
                  if raw ∈ it.aliases then (bestName, false, S)
                  else
                    let tax2 := S.taxonomy.set i
                      { it with aliases := it.aliases ++ [raw] }
                    (bestName, true, ⟨tax2, rebuildAliasMap tax2⟩)
              | none => createNewCanonical raw S
            else createNewCanonical raw S
        | none => createNewCanonical raw S

/-! ## vectorization/upsert_embeddings.py : `_stable_key` and `upsert_latest`

The FAISS index, the embedding model and the text/metadata rendering are
external collaborators; the embedding models the rows appended to the
index and the persisted seen-key state.  `_stable_key` sha1-hashes the
joined payload `f"{indicator}|{date}|{value}|{unit}|{src_url}"`; the
embedding uses the component tuple itself as the key (keys are equal
exactly when the payloads are, up to sha1 collisions and `|`-injection,
neither of which any claim depends on).  The Python `str()` of the
date-or-year object is kept, since it conflates `DateISO = "2023"`
(a string) with `Year = 2023` (an int). -/

/-- A row of `improved_structured_indicators.json` as read by
`upsert_latest` (fields the function accesses; a missing string field is
`""`, `DateISO`/`Year`/`Value` keep `None`). -/
structure Row where
  canonicalIndicator : String
  indicator : String
  dateISO : Option String
  year : Option ℤ
  value : Option ℚ
  unit : String
  sourceURL : String
  url : String
  source : String
deriving DecidableEq

/-- The stable key tuple of `_stable_key` (upsert_embeddings.py lines
79-90): `(indicator, str(DateISO or Year or ""), Value, unit, src_url)`
with the same `strip().lower()` normalizations as the source. -/
def upsert_stable_key (r : Row) :
    String × String × Option ℚ × String × String :=
  let yearStr : String :=
    match r.year with
    | some y => if y ≠ 0 then toString y else ""
    | none => ""
  let dateObj : String :=
    match r.dateISO with
    | some s => if s ≠ "" then s else yearStr
    | none => yearStr
  ((pyLower (pyStrip (pyOrS r.canonicalIndicator r.indicator))),
   pyLower (pyStrip dateObj),
   r.value,
   pyLower (pyStrip r.unit),
   pyLower (pyStrip (pyOrS r.sourceURL (pyOrS r.url r.source))))

/-- The row-collection loop of `upsert_latest` (lines 169-183): skip
rows whose key is in the `seen` set loaded at entry (the set is NOT
extended inside the loop), rows with no indicator, and rows with neither
value nor year nor date; collect the rest together with their keys. -/
def upsertStep (seen : List (String × String × Option ℚ × String × String))
    (acc : List Row × List (String × String × Option ℚ × String × String)) (r : Row) :
    List Row × List (String × String × Option ℚ × String × String) :=
  let key := upsert_stable_key r
  if key ∈ seen then acc
  else if pyOrS r.canonicalIndicator r.indicator = "" then acc
  else if r.value = none ∧ r.year = none ∧ r.dateISO = none then acc
  else (acc.1 ++ [r], acc.2 ++ [key])

/-- The collection fold over the rows of one run. -/
def upsertCollect (rows : List Row) (seen : List (String × String × Option ℚ × String × String)) :
    List Row × List (String × String × Option ℚ × String × String) :=
  rows.foldl (upsertStep seen) ([], [])

/-- Embedding of `upsert_latest` (upsert_embeddings.py lines 151-205) as
a state transformer: given the json rows, the persisted seen-key state
and `max_new`, returns (rows appended to the index, new seen-key state,
returned count).  The Python `set` union is modelled by list append
(membership-equivalent).  Building the FAISS text/metadata and the
vector store itself are external and do not affect keys or counts. -/
def upsert_latest (rows : List Row)
    (seen : List (String × String × Option ℚ × String × String))
    (maxNew : Option ℤ) :
    List Row × List (String × String × Option ℚ × String × String) × ℕ :=
  if rows = [] then ([], seen, 0)
  else
    let c := upsertCollect rows seen
    if c.1 = [] then ([], seen, 0)
    else
      let pairs := match maxNew with
        | some m => if 0 < m then c.1.take m.toNat else c.1
        | none => c.1
      let newly := match maxNew with
        | some m => if 0 < m then c.2.take m.toNat else c.2
        | none => c.2
      (pairs, seen ++ newly, pairs.length)

/-! ## agentic/tools/url_pick.py : domain policy, `_score`,
`pick_verified_urls`

Network is external: the candidate pool produced by `_search_candidates`
(search back-ends plus filtering) and the `_fast_head_ok` liveness probe
are oracle parameters.  `_append_link_bank` persistence is out of scope
(it does not affect the returned list). -/

/-- The trusted domain list (url_pick.py lines 30-36). -/
def TRUSTED_DOMAINS : List String :=
  ["ins.tn", "bct.gov.tn", "imf.org", "data.imf.org", "worldbank.org",
   "documents.worldbank.org", "databank.worldbank.org", "oecd.org", "afdb.org"]

/-- The aggregator domain list (lines 39-42). -/
def AGGREGATOR_DOMAINS : List String :=
  ["tradingeconomics.com", "ceicdata.com", "macrotrends.net", "statista.com",
   "countryeconomy.com", "cbrates.com", "knoema.com", "focus-economics.com"]

/-- Known dead path fragments (lines 45-48). -/
def BAD_PATH_FRAGMENTS : List String :=
  ["/actualites", "/bct/siteprod/actualites.jsp", "/regular.aspx?key=61545865",
   "/news", "/press-release", "/press-releases"]

/-- Publication/statistics path hints (lines 51-59). -/
def GOOD_PATH_HINTS : List String :=
  ["stat", "statistique", "statistics", "publication", "bulletin",
   "communique", "communiqué", "press", "rapport", "monthly", "mensuel", "pdf",
   "xlsx", "xls", "csv", "indice", "index", "cpi", "ppi", "inflation",
   "rate", "interest", "policy", "m2", "reserve", "production",
   "unemployment", "commerce-de-detail", "commerce-de-détail",
   "commerce de detail", "commerce de détail",
   "chiffre d'affaires", "chiffre d’affaires", "dataset", "table", "figure"]

/-- The ICA (retail) triggers (lines 156-159). -/
def RETAIL_TRIGGERS : List String :=
  ["ica", "retail", "commerce de detail", "commerce de détail",
   "chiffre d'affaires", "chiffre d’affaires"]

/-- Drop everything up to and including the first `"://"`. -/
def dropScheme : List Char → Option (List Char)
  | [] => none
  | c :: rest =>
      if c = ':' ∧ ("//".data.isPrefixOf rest) then some (rest.drop 2)
      else dropScheme rest

/-- Model of `_domain_of` (lines 93-101): prepend `https://` when the
input does not start with `http`, take the `urlparse` netloc (up to the
first `/`, `?` or `#`), lowercase, and strip a leading `www.`. -/
def domainOf (u : String) : String :=
  let u2 := if "http".data.isPrefixOf u.data then u.data else ("https://".data ++ u.data)
  match dropScheme u2 with
  | some rest =>
      let host := (rest.takeWhile (fun c => ¬ (c = '/' ∨ c = '?' ∨ c = '#'))).map pyLowerChar
      if "www.".data.isPrefixOf host then ⟨host.drop 4⟩ else ⟨host⟩
  | none => ""

/-- Python `str.endswith`. -/
def pyEndsWith (s suffix : String) : Bool := suffix.data.isSuffixOf s.data

/-- Model of `_is_trusted` (lines 104-106). -/
def isTrusted (u : String) : Bool :=
  TRUSTED_DOMAINS.any (fun t => pyEndsWith (domainOf u) t)

/-- Model of `_is_official` (lines 109-112): the Tunisia official
domains locked to when discovery is off. -/
def isOfficial (u : String) : Bool :=
  pyEndsWith (domainOf u) "ins.tn" || pyEndsWith (domainOf u) "bct.gov.tn"

/-- Model of `_is_aggregator` (lines 115-117). -/
def isAggregator (u : String) : Bool :=
  AGGREGATOR_DOMAINS.any (fun t => pyEndsWith (domainOf u) t)

/-- Model of `_is_probably_dead` (lines 120-122). -/
def isDead (u : String) : Bool :=
  BAD_PATH_FRAGMENTS.any (fun b => strContains (pyLower u).data b.data)

/-- Model of `_looks_like_ica` (lines 161-163). -/
def looksLikeIca (question : String) : Bool :=
  RETAIL_TRIGGERS.any (fun t => strContains (pyLower question).data t.data)

/-- Word-boundary match of one fixed literal at position `i`
(for the recency regex; both `\b` sides). -/
def litBoundaryAt (t : List Char) (i : ℕ) (w : List Char) : Bool :=
  wordBoundaryAt t i w

/-- Model of the `_RECENCY_URL` regex (line 332):
`\b(202[3-5]|q[1-4]|2024|2025|monthly|mensuel|yoy|year[-\s]on[-\s]year)\b`
as an existence test (only `if _RECENCY_URL.search(...)` is used).  The
`[-\s]` pieces accept `-` or a whitespace character. -/
def recencyAt (t : List Char) (i : ℕ) : Bool :=
  (["2023", "2024", "2025", "q1", "q2", "q3", "q4", "monthly", "mensuel",
    "yoy"].map String.data).any (litBoundaryAt t i) ||
  (("year".data.isPrefixOf (t.drop i)) &&
    (match t.get? (i + 4), t.get? (i + 7) with
     | some c1, some c2 =>
        (c1 = '-' || pyIsSpace c1) && ("on".data.isPrefixOf (t.drop (i + 5))) &&
        (c2 = '-' || pyIsSpace c2) && ("year".data.isPrefixOf (t.drop (i + 8))) &&
        (decide (i = 0) || ! isWordChar (t.getD (i - 1) ' ')) &&
        (match t.get? (i + 12) with
         | some c => ! isWordChar c
         | none => true)
     | _, _ => false))

/-- Existence of a recency-signal match in `s`. -/
def recencySearch (s : String) : Bool :=
  (List.range s.data.length).any (fun i => recencyAt s.data i)

/-- Model of the numeric-table snippet regex (line 357):
`\b\d{3,}(?:[.,]\d{3})+\b`, as an existence test (re backtracking makes
a match exist exactly when some start `i` with a word boundary carries
`k >= 3` digits followed by `n >= 1` blocks of `[.,]` plus three digits
and a trailing word boundary). -/
def numericBlockAt (t : List Char) (i : ℕ) : Bool :=
  (decide (i = 0) || ! isWordChar (t.getD (i - 1) ' ')) &&
  (let run := countDigits t i
   (List.range' 3 (run + 1)).any (fun k =>
     decide (k ≤ run) &&
     (List.range' 1 t.length).any (fun n =>
       (List.range n).all (fun j =>
         (match t.get? (i + k + 4 * j) with
          | some c => c = '.' || c = ','
          | none => false) &&
         digitAt t (i + k + 4 * j + 1) && digitAt t (i + k + 4 * j + 2) &&
         digitAt t (i + k + 4 * j + 3)) &&
       (match t.get? (i + k + 4 * n) with
        | some c => ! isWordChar c
        | none => true))))

/-- Existence of a numeric-table match in `s`. -/
def numericTableSearch (s : String) : Bool :=
  (List.range s.data.length).any (fun i => numericBlockAt s.data i)

/-- First `/(20\d{2}|19\d{2})\b` match in `u` (line 361), as the year
value (`re.search` takes the leftmost match). -/
def firstPathYear (u : List Char) : Option ℕ :=
  (List.range u.length).findSome? (fun i =>
    match u.get? i, u.get? (i + 1), u.get? (i + 2), u.get? (i + 3), u.get? (i + 4) with
    | some '/', some c1, some c2, some c3, some c4 =>
        if (((c1 = '2' && c2 = '0') || (c1 = '1' && c2 = '9')) && c3.isDigit && c4.isDigit &&
            (match u.get? (i + 5) with
             | some c => ! isWordChar c
             | none => true)) = true then
          some (1000 * (c1.toNat - 48) + 100 * (c2.toNat - 48) +
            10 * (c3.toNat - 48) + (c4.toNat - 48))
        else none
    | _, _, _, _, _ => none)

/-- Question tokens `set(re.findall(r"[a-zA-ZÀ-ÿ]{4,}", ql))`: maximal
runs of letters (ASCII plus the Latin-1 block `À`..`ÿ`, which in the
source class includes `×` and `÷`) of length at least 4, deduplicated. -/
def letterClass (c : Char) : Bool :=
  (65 ≤ c.toNat ∧ c.toNat ≤ 90) ∨ (97 ≤ c.toNat ∧ c.toNat ≤ 122) ∨
    (0xC0 ≤ c.toNat ∧ c.toNat ≤ 0xFF)

/-- Deduplicate keeping first occurrences. -/
def dedupFirst (l : List (List Char)) : List (List Char) :=
  l.foldl (fun acc w => if w ∈ acc then acc else acc ++ [w]) []

/-- The distinct question tokens. -/
def questionTokens (ql : List Char) : List (List Char) :=
  dedupFirst ((ql.splitOnP (fun c => ! letterClass c)).filter (fun w => 4 ≤ w.length))

/-- Number of distinct question tokens appearing in the snippet or URL
(each contributes `+0.03`; set iteration order does not change a sum). -/
def overlapCount (ql sn u : List Char) : ℕ :=
  ((questionTokens ql).filter (fun w => strContains sn w || strContains u w)).length

/-- Structured-file extensions (line 378). -/
def structuredExt (u : String) : Bool :=
  [".pdf", ".xlsx", ".xls", ".csv", ".json"].any (fun e => pyEndsWith u e)

/-- The ICA phrase list of the INS bonus (line 391). -/
def ICA_URL_PHRASES : List String :=
  ["commerce-de-detail", "commerce-de-détail", "commerce de detail",
   "commerce de détail", "chiffre d'affaires", "chiffre d’affaires", "ica"]

/-- Embedding of `_score` (url_pick.py lines 334-394). -/
def urlScore (url snippet question : String) (allow_discovery : Bool) : ℚ :=
  let u := pyLower url
  let sn := pyLower snippet
  let ql := pyLower question
  (if ¬ allow_discovery ∧ isOfficial u then 4 else 0)
  + (if isTrusted u then 1 else 0)
  + (if GOOD_PATH_HINTS.any (fun h => strContains u.data h.data) then 2 else 0)
  + (if recencySearch u || recencySearch sn then 6/5 else 0)
  + (if strContains sn.data "%".data then 35/100 else 0)
  + (if numericTableSearch sn then 3/5 else 0)
  + (match firstPathYear u.data with
     | some yr => if 2023 ≤ yr then 6/5 else if yr ≤ 2018 then -1 else 0
     | none => 0)
  + (3/100) * overlapCount ql.data sn.data u.data
  + (if structuredExt u then 9/10 else 0)
  + (if isAggregator u then (if ¬ allow_discovery then -3 else -1) else 0)
  + (if isDead u then -5 else 0)
  + (if looksLikeIca question ∧ domainOf u = "ins.tn" ∧
        ICA_URL_PHRASES.any (fun p => strContains u.data p.data) then 3/2 else 0)

/-- Model of `_official_allowed` (lines 421-426). -/
def officialAllowed (u : String) (allow_discovery ica_only : Bool) : Bool :=
  if allow_discovery ∧ ¬ ica_only then true
  else if ica_only then pyEndsWith (domainOf u) "ins.tn"
  else isOfficial u

/-- The official seed/fallback URL lists of `pick_verified_urls`
(lines 452-460 and 509-518; the seed and fallback lists coincide). -/
def ICA_HUB_URLS : List String :=
  ["https://www.ins.tn/statistiques",
   "https://www.ins.tn/publications?keys=commerce%20de%20d%C3%A9tail"]

/-- The non-ICA official hub list. -/
def DEFAULT_HUB_URLS : List String :=
  ["https://www.ins.tn/statistiques",
   "https://www.bct.gov.tn/bct/siteprod/indicateurs.jsp"]

/-- Python `<` on strings (code-point lexicographic), for the tuple sort. -/
def strLtChars : List Char → List Char → Bool
  | [], [] => false
  | [], _ :: _ => true
  | _ :: _, [] => false
  | a :: as, b :: bs =>
      if a.toNat < b.toNat then true
      else if b.toNat < a.toNat then false
      else strLtChars as bs

/-- Python `<` on `(score, url)` tuples. -/
def tupleLt (a b : ℚ × String) : Bool :=
  a.1 < b.1 ∨ (a.1 = b.1 ∧ strLtChars a.2.data b.2.data)

/-- Descending insertion for `sorted(..., reverse=True)`. -/
def insertDesc (x : ℚ × String) : List (ℚ × String) → List (ℚ × String)
  | [] => [x]
  | y :: ys => if tupleLt y x then x :: y :: ys else y :: insertDesc x ys

/-- Descending sort of the scored candidates. -/
def sortDesc (l : List (ℚ × String)) : List (ℚ × String) :=
  l.foldl (fun acc x => insertDesc x acc) []

/-- The strict selection pass (lines 467-475): skip below `min_score` or
non-allowed candidates, append, and break once `top_k` picks are
collected (the break is tested after the append). -/
def strictGo (min_score : ℚ) (allow_discovery ica_only : Bool) (top_k : ℕ) :
    List (ℚ × String) → List String → List String
  | [], picks => picks
  | (s, u) :: rest, picks =>
      if s < min_score then strictGo min_score allow_discovery ica_only top_k rest picks
      else if ¬ officialAllowed u allow_discovery ica_only then
        strictGo min_score allow_discovery ica_only top_k rest picks
      else
        let picks2 := picks ++ [u]
        if top_k ≤ picks2.length then picks2
        else strictGo min_score allow_discovery ica_only top_k rest picks2

/-- The relaxed pass (lines 478-488) with floor
`max(min_score - 1.6, 3.0)`; the break is tested at the loop top. -/
def relaxedGo (relaxed : ℚ) (allow_discovery ica_only : Bool) (top_k : ℕ) :
    List (ℚ × String) → List String → List String
  | [], picks => picks
  | (s, u) :: rest, picks =>
      if top_k ≤ picks.length then picks
      else if s < relaxed then relaxedGo relaxed allow_discovery ica_only top_k rest picks
      else if ¬ officialAllowed u allow_discovery ica_only then
        relaxedGo relaxed allow_discovery ica_only top_k rest picks
      else if u ∈ picks then relaxedGo relaxed allow_discovery ica_only top_k rest picks
      else relaxedGo relaxed allow_discovery ica_only top_k rest (picks ++ [u])

/-- The uniqueness stage (lines 491-498); the break is tested after each
iteration. -/
def uniqGo (top_k : ℕ) : List String → List String → List String
  | [], uniq => uniq
  | u :: rest, uniq =>
      let uniq2 := if u ∈ uniq then uniq else uniq ++ [u]
      if top_k ≤ uniq2.length then uniq2 else uniqGo top_k rest uniq2

/-- The selection stages of `pick_verified_urls` up to the unique list
(steps 2-5 of the source), exposed so the fallback condition of the
specification can be stated. -/
def pickUniqStage (question : String) (top_k : ℕ) (allow_discovery : Bool)
    (min_score : ℚ) (cands : List (String × String)) : List String :=
  let ica_only := looksLikeIca question
  let scored := sortDesc (cands.map (fun c => (urlScore c.1 c.2 question allow_discovery, c.1)))
  let picks := strictGo min_score allow_discovery ica_only top_k scored []
  let picks2 :=
    if picks.length < top_k ∧ scored ≠ [] then
      relaxedGo (max (min_score - 8/5) 3) allow_discovery ica_only top_k scored picks
    else picks
  uniqGo top_k picks2 []

/-- Embedding of `pick_verified_urls` (url_pick.py lines 430-523).  The
candidate pool (`_search_candidates`) and the HEAD liveness probe
(`_fast_head_ok`) are oracle parameters; `write_links` persistence does
not affect the returned value and is elided. -/
def pick_verified_urls (question : String) (top_k : ℕ) (allow_discovery : Bool)
    (min_score : ℚ) (cands : List (String × String)) (headOk : String → Bool) :
    List String :=
  let ica_only := looksLikeIca question
  if cands = [] then (if ica_only then ICA_HUB_URLS else DEFAULT_HUB_URLS).take top_k
  else
    let uniq := pickUniqStage question top_k allow_discovery min_score cands
    let validated := uniq.filter headOk
    let validated2 := if validated = [] ∧ uniq ≠ [] then uniq.take 1 else validated
    let validated3 :=
      if validated2 = [] then
        (if ica_only then ICA_HUB_URLS else DEFAULT_HUB_URLS).take top_k
      else validated2
    validated3.take top_k

/-! ### Proof auxiliaries for the dedup/merge development
(not source translations: characterizations used by the lemmas below). -/

/-- Proof auxiliary: no element of the list is a `dup`-duplicate of an
earlier element. -/
def Clean {α : Type} (dup : α → α → Bool) : List α → Prop
  | [] => True
  | x :: l => (∀ e ∈ l, dup x e = false) ∧ Clean dup l

/-- Proof auxiliary: last element of `l` with key `k`, defaulting to `d`. -/
def lastWith {α κ : Type} [DecidableEq κ] (key : α → κ) (l : List α) (k : κ) (d : α) : α :=
  l.foldl (fun acc r => if key r = k then r else acc) d

/-- Proof auxiliary: entries appended by folding `upsertAssoc` over `R`
for keys not among `ks`, each valued at its last occurrence. -/
def newAssoc {α κ : Type} [DecidableEq κ] (key : α → κ) : List κ → List α → List (κ × α)
  | _, [] => []
  | ks, r :: l =>
      if key r ∈ ks then newAssoc key ks l
      else (key r, lastWith key l (key r) r) :: newAssoc key (ks ++ [key r]) l

/-- Proof auxiliary: effect of folding `upsertAssoc` over `R` on
pre-existing entries (each value replaced by the last occurrence of its
key in `R`, if any). -/
def overrideAssoc {α κ : Type} [DecidableEq κ] (key : α → κ)
    (A : List (κ × α)) (R : List α) : List (κ × α) :=
  A.map (fun p => (p.1, lastWith key R p.1 p.2))

end ValuePipeline

namespace ValuePipeline

/-! ### C7: confidence is strictly monotone in recognized-unit presence -/

/-- Claim C7: for every combination of matched flag, year and value,
`score_confidence` called with a recognized unit (one of `%`, `USD`,
`TND`, `EUR`) returns a strictly greater score than the
otherwise-identical call with unit `None`. -/
theorem C7_score_confidence_unit_strict_mono
    (matched : Bool) (year : Option ℤ) (value : Option ℚ)
    (u : String) (hu : u = "%" ∨ u = "USD" ∨ u = "TND" ∨ u = "EUR") :
    score_confidence matched year value none <
      score_confidence matched year value (some u) := by
  have hrec : unitRecognized (some u) := by
    rcases hu with h | h | h | h <;> simp [unitRecognized, h]
  have htr : truthyStr (some u) = true := by
    rcases hu with h | h | h | h <;> simp [truthyStr, h]
  have hnone_rec : ¬ unitRecognized (none : Option String) := by
    simp [unitRecognized]
  have hnone_tr : truthyStr (none : Option String) = false := rfl
  rcases value with _ | v <;> rcases year with _ | y <;>
    simp only [score_confidence, valueTerm, hrec, htr, hnone_rec, hnone_tr,
      valueEqYear, yearPlausible, not_true, not_false_iff, and_false, false_and,
      and_true, true_and, if_false, if_true, ite_false, ite_true,
      iff_true, not_false_eq_true, Bool.false_eq_true, reduceCtorEq] <;>
    split_ifs <;> omega

/-- Witness for C7 at a concrete input. -/
theorem C7_witness :
    ("%" = "%" ∨ "%" = "USD" ∨ "%" = "TND" ∨ "%" = "EUR") ∧
      score_confidence true (some 2023) (some (17/2)) none <
        score_confidence true (some 2023) (some (17/2)) (some "%") :=
  ⟨Or.inl rfl, C7_score_confidence_unit_strict_mono true (some 2023) (some (17/2)) "%" (Or.inl rfl)⟩

end ValuePipeline

namespace ValuePipeline

/-! ### Generic lemmas about the `remove_duplicates` loop -/

section DedupLemmas

variable {α : Type} (dup : α → α → Bool)

theorem dedupFrom_append (acc l₁ l₂ : List α) :
    dedupFrom dup acc (l₁ ++ l₂) = dedupFrom dup (dedupFrom dup acc l₁) l₂ := by
  simp [dedupFrom, List.foldl_append]

theorem dedupFrom_isPrefix (l : List α) : ∀ acc, acc <+: dedupFrom dup acc l := by
  induction l with
  | nil => intro acc; exact List.prefix_refl _
  | cons e l ih =>
      intro acc
      refine List.IsPrefix.trans ?_ (ih (dedupStep dup acc e))
      unfold dedupStep
      split
      · exact List.prefix_refl _
      · exact List.prefix_append _ _

theorem clean_append_singleton {l : List α} {e : α} (hc : Clean dup l)
    (hs : ∀ s ∈ l, dup s e = false) : Clean dup (l ++ [e]) := by
  induction l with
  | nil => exact ⟨by simp, trivial⟩
  | cons x l ih =>
      obtain ⟨h1, h2⟩ := hc
      refine ⟨?_, ih h2 (fun s hsl => hs s (List.mem_cons_of_mem _ hsl))⟩
      intro y hy
      rcases List.mem_append.mp hy with h | h
      · exact h1 y h
      · rw [List.mem_singleton.mp h]
        exact hs x (List.mem_cons_self _ _)

theorem clean_dedupFrom (l : List α) : ∀ acc, Clean dup acc → Clean dup (dedupFrom dup acc l) := by
  induction l with
  | nil => intro acc h; exact h
  | cons e l ih =>
      intro acc h
      show Clean dup (dedupFrom dup (dedupStep dup acc e) l)
      apply ih
      unfold dedupStep
      split
      · exact h
      · rename_i hany
        refine clean_append_singleton dup h ?_
        intro s hs
        by_contra hne
        exact hany (List.any_eq_true.mpr ⟨s, hs, by simpa using hne⟩)

theorem clean_head_pairs {acc : List α} {e : α} {rest : List α}
    (h : Clean dup (acc ++ e :: rest)) : ∀ s ∈ acc, dup s e = false := by
  induction acc with
  | nil => intro s hs; cases hs
  | cons x acc ih =>
      intro s hs
      obtain ⟨h1, h2⟩ := h
      rcases List.mem_cons.mp hs with h3 | hsm
      · rw [h3]; exact h1 e (by simp)
      · exact ih h2 s hsm

theorem dedupFrom_of_clean (l : List α) :
    ∀ acc, Clean dup (acc ++ l) → dedupFrom dup acc l = acc ++ l := by
  induction l with
  | nil => intro acc _; simp [dedupFrom]
  | cons e l ih =>
      intro acc h
      have hacc : ∀ s ∈ acc, dup s e = false := clean_head_pairs dup h
      have hany : (acc.any fun s => dup s e) = false := by
        rw [List.any_eq_false]
        intro x hx
        simp [hacc x hx]
      show dedupFrom dup (dedupStep dup acc e) l = acc ++ e :: l
      rw [dedupStep, if_neg (by simp [hany])]
      have := ih (acc ++ [e]) (by simpa using h)
      simpa using this

theorem clean_removeDuplicatesBy (l : List α) : Clean dup (removeDuplicatesBy dup l) :=
  clean_dedupFrom dup l [] trivial

theorem removeDuplicatesBy_of_clean {l : List α} (h : Clean dup l) :
    removeDuplicatesBy dup l = l := by
  have := dedupFrom_of_clean dup l [] (by simpa using h)
  simpa [removeDuplicatesBy] using this

theorem dedupFrom_all_dropped {l : List α} :
    ∀ {acc}, (∀ e ∈ l, (acc.any fun s => dup s e) = true) → dedupFrom dup acc l = acc := by
  induction l with
  | nil => intro acc _; rfl
  | cons e l ih =>
      intro acc h
      show dedupFrom dup (dedupStep dup acc e) l = acc
      rw [dedupStep, if_pos (by simpa using h e (List.mem_cons_self _ _))]
      exact ih (fun x hx => h x (List.mem_cons_of_mem _ hx))

theorem dedupFrom_sublist (l : List α) :
    ∀ acc, List.Sublist (dedupFrom dup acc l) (acc ++ l) := by
  induction l with
  | nil => intro acc; simp [dedupFrom]
  | cons e l ih =>
      intro acc
      show List.Sublist (dedupFrom dup (dedupStep dup acc e) l) (acc ++ e :: l)
      unfold dedupStep
      split
      · exact (ih acc).trans (List.Sublist.append_left (List.sublist_cons_self _ _) _)
      · have := ih (acc ++ [e])
        simpa using this

theorem removeDuplicatesBy_sublist (l : List α) :
    List.Sublist (removeDuplicatesBy dup l) l := by
  simpa [removeDuplicatesBy] using dedupFrom_sublist dup l []

theorem dedup_dropped_witness (l : List α) :
    ∀ acc e, e ∈ l → e ∉ dedupFrom dup acc l →
      ∃ s ∈ dedupFrom dup acc l, dup s e = true := by
  induction l with
  | nil => intro acc e he; cases he
  | cons h6 l ih =>
      intro acc e he hnot
      rcases List.mem_cons.mp he with h7 | htail
      · subst h7
        by_cases hany : (acc.any fun s => dup s e) = true
        · rcases List.any_eq_true.mp hany with ⟨s, hs, hd⟩
          have hpre0 : acc <+: dedupStep dup acc e := by
            simp only [dedupStep, hany, if_true]
            exact List.prefix_refl _
          have hpre : acc <+: dedupFrom dup (dedupStep dup acc e) l :=
            hpre0.trans (dedupFrom_isPrefix dup l _)
          exact ⟨s, hpre.subset hs, by simpa using hd⟩
        · exfalso
          apply hnot
          have hstep : dedupStep dup acc e = acc ++ [e] := by
            rw [dedupStep, if_neg (by simpa using hany)]
          have hpre : dedupStep dup acc e <+: dedupFrom dup (dedupStep dup acc e) l :=
            dedupFrom_isPrefix dup l _
          show e ∈ dedupFrom dup (dedupStep dup acc e) l
          exact hpre.subset (by rw [hstep]; simp)
      · exact ih (dedupStep dup acc h6) e htail hnot

end DedupLemmas

end ValuePipeline

namespace ValuePipeline

/-! ### Generic lemmas about the `merge_across_runs` dict fold -/

section MergeLemmas

variable {α κ : Type} [DecidableEq κ] (key : α → κ)

theorem lastWith_cons (r : α) (l : List α) (k : κ) (d : α) :
    lastWith key (r :: l) k d = lastWith key l k (if key r = k then r else d) := rfl

theorem lastWith_append (l₁ l₂ : List α) (k : κ) (d : α) :
    lastWith key (l₁ ++ l₂) k d = lastWith key l₂ k (lastWith key l₁ k d) := by
  simp [lastWith, List.foldl_append]

theorem lastWith_of_not_mem {l : List α} {k : κ} (h : k ∉ l.map key) (d : α) :
    lastWith key l k d = d := by
  induction l generalizing d with
  | nil => rfl
  | cons r l ih =>
      rw [lastWith_cons]
      have hk : key r ≠ k := fun he => h (by simp [he])
      rw [if_neg hk]
      exact ih (fun hm => h (by simp [hm])) d

theorem lastWith_indep {l : List α} {k : κ} (h : k ∈ l.map key) (d d' : α) :
    lastWith key l k d = lastWith key l k d' := by
  induction l generalizing d d' with
  | nil => cases h
  | cons r l ih =>
      rw [lastWith_cons, lastWith_cons]
      by_cases hk : key r = k
      · rw [if_pos hk, if_pos hk]
      · rw [if_neg hk, if_neg hk]
        rw [List.map_cons] at h
        have hm : k ∈ l.map key := by
          rcases List.mem_cons.mp h with h1 | h1
          · exact absurd h1.symm hk
          · exact h1
        exact ih hm d d'

theorem lastWith_key {l : List α} {k : κ} : ∀ {d : α}, key d = k → key (lastWith key l k d) = k := by
  induction l with
  | nil => intro d h; exact h
  | cons r l ih =>
      intro d h
      rw [lastWith_cons]
      by_cases hk : key r = k
      · rw [if_pos hk]; exact ih hk
      · rw [if_neg hk]; exact ih h

theorem map_fst_replace (A : List (κ × α)) (r : α) :
    (A.map (fun p => if p.1 = key r then (key r, r) else p)).map Prod.fst
      = A.map Prod.fst := by
  rw [List.map_map]
  apply List.map_congr_left
  intro p _
  by_cases h : p.1 = key r
  · simp [Function.comp, h]
  · simp [Function.comp, h]

theorem newAssoc_spec (R : List α) :
    ∀ (ks : List κ) (k : κ) (v : α), (k, v) ∈ newAssoc key ks R →
      k ∉ ks ∧ k ∈ R.map key ∧ key v = k ∧ ∀ d, v = lastWith key R k d := by
  induction R with
  | nil => intro ks k v h; cases h
  | cons r R ih =>
      intro ks k v h
      rw [newAssoc] at h
      by_cases hr : key r ∈ ks
      · rw [if_pos hr] at h
        obtain ⟨h1, h2, h3, h4⟩ := ih ks k v h
        refine ⟨h1, by simp [h2], h3, ?_⟩
        intro d
        rw [lastWith_cons]
        by_cases hk : key r = k
        · exact absurd (hk ▸ hr) h1
        · rw [if_neg hk]; exact h4 d
      · rw [if_neg hr] at h
        rcases List.mem_cons.mp h with h0 | h0
        · obtain ⟨hk, hv⟩ := Prod.mk.inj h0
          subst hk
          subst hv
          refine ⟨hr, by simp, lastWith_key key rfl, ?_⟩
          intro d
          rw [lastWith_cons, if_pos rfl]
        · obtain ⟨h1, h2, h3, h4⟩ := ih (ks ++ [key r]) k v h0
          have h1ks : k ∉ ks := fun hm => h1 (by simp [hm])
          have h1r : key r ≠ k := by
            intro he
            exact h1 (by simp [he])
          refine ⟨h1ks, by simp [h2], h3, ?_⟩
          intro d
          rw [lastWith_cons, if_neg h1r]
          exact h4 d

theorem newAssoc_covers (R : List α) :
    ∀ (ks : List κ) (k : κ), k ∈ R.map key → k ∉ ks →
      k ∈ (newAssoc key ks R).map Prod.fst := by
  induction R with
  | nil => intro ks k h; cases h
  | cons r R ih =>
      intro ks k hk hks
      rw [List.map_cons] at hk
      rw [newAssoc]
      by_cases hr : key r ∈ ks
      · rw [if_pos hr]
        have hm : k ∈ R.map key := by
          rcases List.mem_cons.mp hk with h1 | h1
          · exact absurd (h1 ▸ hr) hks
          · exact h1
        exact ih ks k hm hks
      · rw [if_neg hr]
        by_cases hkr : k = key r
        · simp [hkr]
        · rcases List.mem_cons.mp hk with h1 | h1
          · exact absurd h1 hkr
          · have hnot : k ∉ ks ++ [key r] := by
              intro hm
              rcases List.mem_append.mp hm with h2 | h2
              · exact hks h2
              · exact hkr (List.mem_singleton.mp h2)
            simp only [List.map_cons, List.mem_cons]
            exact Or.inr (ih (ks ++ [key r]) k h1 hnot)

theorem newAssoc_nodup_fst (R : List α) :
    ∀ ks, ((newAssoc key ks R).map Prod.fst).Nodup := by
  induction R with
  | nil => intro ks; simp [newAssoc]
  | cons r R ih =>
      intro ks
      rw [newAssoc]
      by_cases hr : key r ∈ ks
      · rw [if_pos hr]; exact ih ks
      · rw [if_neg hr]
        simp only [List.map_cons]
        rw [List.nodup_cons]
        constructor
        · intro hm
          rcases List.mem_map.mp hm with ⟨p, hp, he⟩
          obtain ⟨h1, _, _, _⟩ := newAssoc_spec key R _ p.1 p.2 (by simpa using hp)
          rw [he] at h1
          exact h1 (by simp)
        · exact ih (ks ++ [key r])

theorem foldl_upsertAssoc_decomp (R : List α) :
    ∀ (A : List (κ × α)),
      R.foldl (upsertAssoc key) A
        = overrideAssoc key A R ++ newAssoc key (A.map Prod.fst) R := by
  induction R with
  | nil =>
      intro A
      simp [overrideAssoc, newAssoc, lastWith]
  | cons r R ih =>
      intro A
      show R.foldl (upsertAssoc key) (upsertAssoc key A r) = _
      by_cases hmem : (A.any fun p => p.1 = key r) = true
      · have hks : key r ∈ A.map Prod.fst := by
          rcases List.any_eq_true.mp hmem with ⟨p, hp, hpk⟩
          have hpe : p.1 = key r := by simpa using hpk
          exact hpe ▸ List.mem_map_of_mem Prod.fst hp
        rw [upsertAssoc, if_pos hmem, ih]
        congr 1
        · unfold overrideAssoc
          rw [List.map_map]
          apply List.map_congr_left
          intro p _
          by_cases hpk : p.1 = key r
          · simp [Function.comp, hpk, lastWith_cons]
          · have hpk2 : ¬ (key r = p.1) := fun h => hpk h.symm
            simp [Function.comp, hpk, lastWith_cons, hpk2]
        · rw [map_fst_replace, newAssoc, if_pos hks]
      · have hks : key r ∉ A.map Prod.fst := by
          intro hm
          rcases List.mem_map.mp hm with ⟨p, hp, hpk⟩
          exact hmem (List.any_eq_true.mpr ⟨p, hp, by simpa using hpk⟩)
        rw [upsertAssoc, if_neg hmem, ih, newAssoc, if_neg hks]
        have h1 : overrideAssoc key (A ++ [(key r, r)]) R
            = overrideAssoc key A R ++ [(key r, lastWith key R (key r) r)] := by
          simp [overrideAssoc]
        have h2 : (A ++ [(key r, r)]).map Prod.fst = A.map Prod.fst ++ [key r] := by simp
        rw [h1, h2]
        have h3 : overrideAssoc key A (r :: R) = overrideAssoc key A R := by
          unfold overrideAssoc
          apply List.map_congr_left
          intro p hp
          rw [lastWith_cons]
          have hne : key r ≠ p.1 := by
            intro he
            exact hks (he ▸ List.mem_map_of_mem Prod.fst hp)
          rw [if_neg hne]
        rw [h3]
        simp

theorem mem_foldl_upsert_values_last (R : List α) (A : List (κ × α)) (k : κ) (v : α)
    (hmem : (k, v) ∈ R.foldl (upsertAssoc key) A) (hk : k ∈ R.map key) (d : α) :
    v = lastWith key R k d := by
  rw [foldl_upsertAssoc_decomp] at hmem
  rcases List.mem_append.mp hmem with h | h
  · rcases List.mem_map.mp h with ⟨p, hp, hpe⟩
    obtain ⟨h1, h2⟩ := Prod.mk.inj hpe
    rw [← h2, h1]
    exact lastWith_indep key hk p.2 d
  · obtain ⟨_, _, _, h4⟩ := newAssoc_spec key R _ k v h
    exact h4 d

theorem keyInv_foldl_upsert (R : List α) (A : List (κ × α))
    (hA : ∀ p ∈ A, key p.2 = p.1) :
    ∀ p ∈ R.foldl (upsertAssoc key) A, key p.2 = p.1 := by
  intro p hp
  rw [foldl_upsertAssoc_decomp] at hp
  rcases List.mem_append.mp hp with h | h
  · rcases List.mem_map.mp h with ⟨q, hq, hqe⟩
    rw [← hqe]
    exact lastWith_key key (hA q hq)
  · obtain ⟨_, _, h3, _⟩ := newAssoc_spec key R _ p.1 p.2 (by simpa using h)
    exact h3

theorem map_fst_overrideAssoc (A : List (κ × α)) (R : List α) :
    (overrideAssoc key A R).map Prod.fst = A.map Prod.fst := by
  simp [overrideAssoc, List.map_map, Function.comp]

theorem mem_map_fst_foldl_upsert (R : List α) (A : List (κ × α)) (k : κ)
    (hk : k ∈ R.map key) :
    k ∈ (R.foldl (upsertAssoc key) A).map Prod.fst := by
  rw [foldl_upsertAssoc_decomp, List.map_append, map_fst_overrideAssoc]
  by_cases hA : k ∈ A.map Prod.fst
  · exact List.mem_append_left _ hA
  · exact List.mem_append_right _ (newAssoc_covers key R _ k hk hA)

omit [DecidableEq κ] in
theorem exists_entry_of_mem_values {m : List (κ × α)} {v : α}
    (h : v ∈ m.map Prod.snd) : ∃ k, (k, v) ∈ m := by
  rcases List.mem_map.mp h with ⟨p, hp, he⟩
  exact ⟨p.1, by rw [← he]; simpa using hp⟩

theorem foldl_upsert_disjoint_nodup (l : List α) :
    ∀ (acc : List (κ × α)), (∀ x ∈ l, key x ∉ acc.map Prod.fst) → (l.map key).Nodup →
      l.foldl (upsertAssoc key) acc = acc ++ l.map (fun t => (key t, t)) := by
  induction l with
  | nil => intro acc _ _; simp
  | cons t l ih =>
      intro acc hdis hnd
      rw [List.map_cons] at hnd
      have hnd2 := List.nodup_cons.mp hnd
      have hmem : (acc.any fun p => p.1 = key t) = false := by
        rw [List.any_eq_false]
        intro p hp
        simp only [decide_eq_true_eq]
        intro he
        exact hdis t (List.mem_cons_self _ _) (he ▸ List.mem_map_of_mem Prod.fst hp)
      show l.foldl (upsertAssoc key) (upsertAssoc key acc t) = _
      rw [upsertAssoc, if_neg (by simp [hmem])]
      rw [ih (acc ++ [(key t, t)]) ?_ hnd2.2]
      · simp
      · intro x hx
        rw [List.map_append]
        intro hm
        rcases List.mem_append.mp hm with h | h
        · exact hdis x (List.mem_cons_of_mem _ hx) h
        · have hxe : key x = key t := by simpa using h
          exact hnd2.1 (hxe ▸ List.mem_map_of_mem key hx)

theorem nodup_fst_foldl_upsert (R : List α) (A : List (κ × α))
    (hA : (A.map Prod.fst).Nodup) :
    ((R.foldl (upsertAssoc key) A).map Prod.fst).Nodup := by
  rw [foldl_upsertAssoc_decomp, List.map_append, map_fst_overrideAssoc]
  apply List.Nodup.append hA (newAssoc_nodup_fst key R _)
  intro k hk1 hk2
  rcases List.mem_map.mp hk2 with ⟨p, hp, he⟩
  obtain ⟨h1, _, _, _⟩ := newAssoc_spec key R _ p.1 p.2 (by simpa using hp)
  exact h1 (by rw [he]; exact hk1)

end MergeLemmas

end ValuePipeline

namespace ValuePipeline

/-! ### Generic idempotence of merge-then-dedup -/

section Idempotence

variable {α κ : Type} [DecidableEq κ]

/-- Generic idempotence: folding a table and a fixed new-record list into
the key map and deduplicating is idempotent, for any key function and any
(not necessarily symmetric) duplicate test. -/
theorem mergeBy_dedup_idem (key : α → κ) (dup : α → α → Bool) (T R : List α) :
    removeDuplicatesBy dup (mergeBy key (removeDuplicatesBy dup (mergeBy key T R)) R)
      = removeDuplicatesBy dup (mergeBy key T R) := by
  set M1a := (T ++ R).foldl (upsertAssoc key) [] with hM1a
  set M1 := M1a.map Prod.snd with hM1
  set T1 := removeDuplicatesBy dup M1 with hT1
  have hmerge1 : mergeBy key T R = M1 := rfl
  have hKeyInv : ∀ p ∈ M1a, key p.2 = p.1 :=
    keyInv_foldl_upsert key (T ++ R) [] (by simp)
  have hT1sub : List.Sublist T1 M1 := removeDuplicatesBy_sublist dup M1
  have hlast : ∀ k, k ∈ R.map key → ∀ d, lastWith key (T ++ R) k d = lastWith key R k d := by
    intro k hk d
    rw [lastWith_append]
    exact lastWith_indep key hk _ _
  have hT1last : ∀ t ∈ T1, key t ∈ R.map key → t = lastWith key R (key t) t := by
    intro t ht hk
    have htM1 : t ∈ M1 := hT1sub.subset ht
    obtain ⟨k0, hk0⟩ := exists_entry_of_mem_values htM1
    have hk0t : k0 = key t := (hKeyInv _ hk0).symm
    rw [hk0t] at hk0
    have hres := mem_foldl_upsert_values_last key (T ++ R) [] (key t) t hk0
      (by rw [List.map_append]; exact List.mem_append_right _ hk) t
    rw [hlast (key t) hk t] at hres
    exact hres
  have hT1keynd : (T1.map key).Nodup := by
    have h1 : M1.map key = M1a.map Prod.fst := by
      rw [hM1, List.map_map]
      apply List.map_congr_left
      intro p hp
      exact hKeyInv p hp
    have h2 : (M1a.map Prod.fst).Nodup := nodup_fst_foldl_upsert key (T ++ R) [] (by simp)
    exact List.Nodup.sublist (hT1sub.map key) (h1 ▸ h2)
  have hassoc : T1.foldl (upsertAssoc key) [] = T1.map (fun t => (key t, t)) := by
    have h := foldl_upsert_disjoint_nodup key T1 [] (by simp) hT1keynd
    simpa using h
  have hmerge2 : mergeBy key T1 R
      = T1 ++ (newAssoc key (T1.map key) R).map Prod.snd := by
    unfold mergeBy
    rw [List.foldl_append, hassoc, foldl_upsertAssoc_decomp, List.map_append]
    congr 1
    · unfold overrideAssoc
      rw [List.map_map, List.map_map]
      have hpt : ∀ t ∈ T1, lastWith key R (key t) t = t := by
        intro t ht
        by_cases hk : key t ∈ R.map key
        · exact (hT1last t ht hk).symm
        · exact lastWith_of_not_mem key hk t
      calc T1.map (Prod.snd ∘ ((fun p => (p.1, lastWith key R p.1 p.2)) ∘ fun t => (key t, t)))
          = T1.map id := by
            apply List.map_congr_left
            intro t ht
            simpa [Function.comp] using hpt t ht
        _ = T1 := List.map_id _
    · rw [List.map_map]
      have hfst : T1.map (Prod.fst ∘ fun t => (key t, t)) = T1.map key :=
        List.map_congr_left (fun t _ => rfl)
      rw [hfst]
  have hDdrop : ∀ d ∈ (newAssoc key (T1.map key) R).map Prod.snd,
      (T1.any fun s => dup s d) = true := by
    intro d hd
    rcases List.mem_map.mp hd with ⟨p, hp, he⟩
    obtain ⟨h1, h2, h3, h4⟩ := newAssoc_spec key R _ p.1 p.2 (by simpa using hp)
    have hdk : key d = p.1 := he ▸ h3
    have hdnotT1 : d ∉ T1 := by
      intro hmem
      apply h1
      rw [← hdk]
      exact List.mem_map_of_mem key hmem
    have hdM1 : d ∈ M1 := by
      have hkTR : p.1 ∈ (T ++ R).map key := by
        rw [List.map_append]; exact List.mem_append_right _ h2
      have hfst : p.1 ∈ M1a.map Prod.fst := mem_map_fst_foldl_upsert key (T ++ R) [] p.1 hkTR
      rcases List.mem_map.mp hfst with ⟨q, hq, hqe⟩
      have hqmem : (p.1, q.2) ∈ M1a := by
        rw [← hqe]
        simpa using hq
      have hv : q.2 = lastWith key (T ++ R) p.1 q.2 :=
        mem_foldl_upsert_values_last key (T ++ R) [] p.1 q.2 hqmem hkTR q.2
      have hd2 : d = lastWith key (T ++ R) p.1 q.2 := by
        rw [hlast p.1 h2 q.2, ← he]
        exact h4 q.2
      rw [hd2, ← hv]
      exact List.mem_map_of_mem Prod.snd hq
    obtain ⟨s, hsmem, hsd⟩ := dedup_dropped_witness dup M1 [] d hdM1 hdnotT1
    exact List.any_eq_true.mpr ⟨s, hsmem, by simpa using hsd⟩
  rw [hmerge1, hmerge2]
  show dedupFrom dup [] (T1 ++ (newAssoc key (T1.map key) R).map Prod.snd) = T1
  rw [dedupFrom_append]
  have hT1self : dedupFrom dup [] T1 = T1 :=
    removeDuplicatesBy_of_clean dup (clean_removeDuplicatesBy dup M1)
  rw [hT1self]
  exact dedupFrom_all_dropped dup hDdrop

end Idempotence

end ValuePipeline

namespace ValuePipeline

/-! ### C1: idempotence of the ingestion merge-and-dedup -/

/-- Claim C1: the ingestion pipeline is idempotent.  For every persisted
observation table `T` and extraction result list `R`, merging `R` into
`T` and deduplicating, and then repeating the same merge-and-dedup with
the same `R`, yields the identical final observation table (the very same
record list, hence the same records, keys and confidence scores). -/
theorem C1_ingest_idempotent (T R : List Obs) :
    remove_duplicates (merge_across_runs (remove_duplicates (merge_across_runs T R)) R)
      = remove_duplicates (merge_across_runs T R) :=
  mergeBy_dedup_idem make_key isDup T R

/-! ### C3: the cross-run merge key uses the exact value, not a rounded one -/

/-- Counterexample to claim C3: two records that agree on indicator,
date, unit and source, and whose values agree after rounding (at 0, 1, 2
or 3 decimal places: 8.51 vs 8.5104), are BOTH kept by
`merge_across_runs` — the newer record does not overwrite the older one,
because the stable key uses the exact `Value` with no rounding. -/
theorem C3_counterexample :
    (∀ d : ℕ, d ≤ 3 →
        round ((851 / 100 : ℚ) * 10 ^ d) = round ((85104 / 10000 : ℚ) * 10 ^ d)) ∧
    (851 / 100 : ℚ) ≠ 85104 / 10000 ∧
    merge_across_runs
        [⟨"GDP", "GDP", none, some 2023, 851 / 100, "%", "https://ins.tn/a", "INS", "raw1", 80⟩]
        [⟨"GDP", "GDP", none, some 2023, 85104 / 10000, "%", "https://ins.tn/a", "INS", "raw2", 85⟩]
      = [⟨"GDP", "GDP", none, some 2023, 851 / 100, "%", "https://ins.tn/a", "INS", "raw1", 80⟩,
         ⟨"GDP", "GDP", none, some 2023, 85104 / 10000, "%", "https://ins.tn/a", "INS", "raw2", 85⟩] := by
  refine ⟨?_, by norm_num, by decide⟩
  intro d hd
  interval_cases d <;> norm_num [round_eq]

/-- Claim C3 (amended): the cross-run merge unions by the stable key
`(indicator, date-or-year, EXACT value, unit, source)`.  Two records
with equal stable keys collapse with the newer overwriting the older;
two records whose stable keys differ in any component (including exact
value) are both kept. -/
theorem C3_merge_by_exact_key (r1 r2 : Obs) :
    (make_key r1 = make_key r2 → merge_across_runs [r1] [r2] = [r2]) ∧
    (make_key r1 ≠ make_key r2 → merge_across_runs [r1] [r2] = [r1, r2]) := by
  constructor
  · intro h
    show ((upsertAssoc make_key (upsertAssoc make_key [] r1) r2).map Prod.snd) = [r2]
    have h1 : upsertAssoc make_key [] r1 = [(make_key r1, r1)] := by
      rw [upsertAssoc, if_neg (by simp)]
      rfl
    rw [h1, upsertAssoc, if_pos (by simp [h])]
    simp [h]
  · intro h
    show ((upsertAssoc make_key (upsertAssoc make_key [] r1) r2).map Prod.snd) = [r1, r2]
    have h1 : upsertAssoc make_key [] r1 = [(make_key r1, r1)] := by
      rw [upsertAssoc, if_neg (by simp)]
      rfl
    rw [h1, upsertAssoc, if_neg (by simp [h])]
    rfl

/-- Witness for the amended C3 at concrete inputs: equal keys collapse to
the newer record; keys differing only in the exact value keep both. -/
theorem C3_merge_by_exact_key_witness :
    merge_across_runs
        [⟨"CPI", "CPI", none, some 2024, 93 / 10, "%", "u", "s", "old", 10⟩]
        [⟨"CPI", "CPI", none, some 2024, 93 / 10, "%", "u", "s", "new", 99⟩]
      = [⟨"CPI", "CPI", none, some 2024, 93 / 10, "%", "u", "s", "new", 99⟩] ∧
    merge_across_runs
        [⟨"CPI", "CPI", none, some 2024, 93 / 10, "%", "u", "s", "old", 10⟩]
        [⟨"CPI", "CPI", none, some 2024, 94 / 10, "%", "u", "s", "new", 99⟩]
      = [⟨"CPI", "CPI", none, some 2024, 93 / 10, "%", "u", "s", "old", 10⟩,
         ⟨"CPI", "CPI", none, some 2024, 94 / 10, "%", "u", "s", "new", 99⟩] :=
  ⟨(C3_merge_by_exact_key _ _).1 (by decide),
   (C3_merge_by_exact_key _ _).2 (by decide)⟩

/-! ### C8: within-run dedup compares only against KEPT records -/

/-- Counterexample to claim C8: records A, B, C (values 100, 100.4,
100.8, identical indicator, year and raw text).  B and C are
near-identical in the sense of the claim (`isDup B C = true`), yet
`remove_duplicates [A, B, C]` keeps C: B was dropped as a duplicate of A,
and later records are only compared against kept records, so C survives
(it is not a near-duplicate of A, the only kept predecessor). -/
theorem C8_counterexample :
    isDup (⟨"", "GDP", none, some 2020, 502 / 5, "", "", "", "x", 0⟩ : Obs)
        (⟨"", "GDP", none, some 2020, 504 / 5, "", "", "", "x", 0⟩ : Obs) = true ∧
    remove_duplicates
        [⟨"", "GDP", none, some 2020, 100, "", "", "", "x", 0⟩,
         ⟨"", "GDP", none, some 2020, 502 / 5, "", "", "", "x", 0⟩,
         ⟨"", "GDP", none, some 2020, 504 / 5, "", "", "", "x", 0⟩]
      = [⟨"", "GDP", none, some 2020, 100, "", "", "", "x", 0⟩,
         ⟨"", "GDP", none, some 2020, 504 / 5, "", "", "", "x", 0⟩] := by
  constructor
  · decide
  · decide

/-- Claim C8 (amended): `remove_duplicates` drops a later record exactly
when it is near-identical (same indicator case-insensitively, same year,
value difference below 0.5, raw-text similarity above 0.85) to some
earlier KEPT record; a record whose only near-duplicates among its
predecessors were themselves dropped is kept. -/
theorem C8_dedup_vs_kept (pre : List Obs) (e : Obs) (post : List Obs) :
    ((∃ s ∈ remove_duplicates pre, isDup s e = true) →
        remove_duplicates (pre ++ e :: post) = remove_duplicates (pre ++ post)) ∧
    ((¬ ∃ s ∈ remove_duplicates pre, isDup s e = true) →
        e ∈ remove_duplicates (pre ++ e :: post)) := by
  constructor
  · rintro ⟨s, hs, hd⟩
    show dedupFrom isDup [] (pre ++ e :: post) = dedupFrom isDup [] (pre ++ post)
    rw [dedupFrom_append, dedupFrom_append]
    show dedupFrom isDup (dedupStep isDup (dedupFrom isDup [] pre) e) post = _
    have hstep : dedupStep isDup (dedupFrom isDup [] pre) e = dedupFrom isDup [] pre := by
      rw [dedupStep, if_pos]
      exact List.any_eq_true.mpr ⟨s, hs, by simpa using hd⟩
    rw [hstep]
  · intro h
    show e ∈ dedupFrom isDup [] (pre ++ e :: post)
    rw [dedupFrom_append]
    show e ∈ dedupFrom isDup (dedupStep isDup (dedupFrom isDup [] pre) e) post
    have hstep : dedupStep isDup (dedupFrom isDup [] pre) e
        = dedupFrom isDup [] pre ++ [e] := by
      rw [dedupStep, if_neg]
      intro hany
      rcases List.any_eq_true.mp hany with ⟨s, hs, hd⟩
      exact h ⟨s, hs, by simpa using hd⟩
    apply (dedupFrom_isPrefix isDup post _).subset
    rw [hstep]
    simp

/-- Witness for the amended C8 at a concrete input (a kept near-duplicate
causes the later record to be dropped). -/
theorem C8_dedup_vs_kept_witness :
    remove_duplicates
        ([⟨"", "GDP", none, some 2020, 100, "", "", "", "x", 0⟩]
          ++ (⟨"", "GDP", none, some 2020, 502 / 5, "", "", "", "x", 0⟩ : Obs) :: [])
      = remove_duplicates ([⟨"", "GDP", none, some 2020, 100, "", "", "", "x", 0⟩] ++ []) :=
  (C8_dedup_vs_kept _ _ _).1
    ⟨⟨"", "GDP", none, some 2020, 100, "", "", "", "x", 0⟩, by decide,
      by decide⟩

end ValuePipeline

namespace ValuePipeline

/-! ### C2: value extraction examples and the bare-year guard -/

/-- Claim C2: `extract_value "Inflation stood at 8,5 %"` is `(8.5, "%")`,
`extract_value "GDP reached 1.2 billion USD"` is `(1.2e9, "USD")`, the
bare `"2023"` gives `(None, None)`; and in general, whenever the first
numeric token of a text parses to a value in `[1900, 2099]`, carries no
unit, and the text has no temporal preposition, `extract_value` returns
`(None, None)`. -/
theorem C2_extract_value :
    extract_value "Inflation stood at 8,5 %" = (some (17 / 2), some "%") ∧
    extract_value "GDP reached 1.2 billion USD" = (some 1200000000, some "USD") ∧
    extract_value "2023" = (none, none) ∧
    (∀ (text : String) (p : ℕ) (v : ℚ),
      (evPreprocess text.data).findIdx? Char.isDigit = some p →
      pyFloatParse (cleanRaw (parseGroup1 (evPreprocess text.data) p).1) = some v →
      group2Unit (evPreprocess text.data) (parseGroup1 (evPreprocess text.data) p).2 = none →
      1900 ≤ v → v ≤ 2099 →
      hasTemporalCue (evPreprocess text.data) = false →
      extract_value text = (none, none)) := by
  refine ⟨by decide, by decide, by decide, ?_⟩
  intro text p v hfind hfl hunit h1900 h2099 htemp
  unfold extract_value
  dsimp only
  rw [hfind]
  dsimp only
  rw [hunit, hfl]
  dsimp only
  rw [if_pos ⟨h1900, h2099, rfl, by simp [htemp]⟩]

/-- Witness for the universally quantified part of C2 at the concrete
input `"2023"`. -/
theorem C2_extract_value_witness : extract_value "2023" = (none, none) :=
  C2_extract_value.2.2.2 "2023" 0 2023 (by decide) (by decide) (by decide)
    (by decide) (by decide) (by decide)

end ValuePipeline

namespace ValuePipeline

/-! ### C10: empty or whitespace-only phrases leave the taxonomy untouched -/

/-- Claim C10: for the empty string and every whitespace-only phrase,
`ensure_indicator_and_alias` returns `("", False)` and performs no
taxonomy mutation: taxonomy file and alias map are unchanged. -/
theorem C10_blank_phrase_no_mutation (S : TaxState) (p : String)
    (h : p.data.all pyIsSpace = true) :
    ensure_indicator_and_alias p S = ("", false, S) := by
  have h1 : p.data.dropWhile pyIsSpace = [] := by
    rw [List.dropWhile_eq_nil_iff]
    intro x hx
    exact (List.all_eq_true.mp h) x hx
  have hstrip : pyStrip p = "" := by
    show String.mk (pyStripList p.data) = ""
    rw [pyStripList, h1]
    rfl
  unfold ensure_indicator_and_alias
  rw [hstrip]
  rfl

/-- Witness for C10 at a concrete whitespace phrase and non-trivial state. -/
theorem C10_blank_phrase_no_mutation_witness :
    ensure_indicator_and_alias " \t "
        ⟨[⟨"GDP", ["gdp"]⟩], [("gdp", "Gdp")]⟩
      = ("", false, ⟨[⟨"GDP", ["gdp"]⟩], [("gdp", "Gdp")]⟩) :=
  C10_blank_phrase_no_mutation _ _ (by decide)

/-! ### C5: taxonomy resolution is stable only up to title-casing -/

set_option maxRecDepth 8000 in
/-- Counterexample to claim C5: from the consistent state whose taxonomy
holds the single canonical `"Policy interest rate (%)"` (alias
`"taux directeur"`), resolving the phrase `"policy interest rates"`
returns `"Policy interest rate (%)"` (fuzzy match at ratio
`2000/21 = 95.2 >= 88`, phrase attached as a new alias); the very next
call with the same phrase hits the rebuilt alias map, whose builder
title-cases canonicals, and returns `"Policy Interest Rate (%)"` — a
different canonical string, with no intervening explicit edit. -/
theorem C5_counterexample :
    (ensure_indicator_and_alias "policy interest rates"
        ⟨[⟨"Policy interest rate (%)", ["taux directeur"]⟩],
         rebuildAliasMap [⟨"Policy interest rate (%)", ["taux directeur"]⟩]⟩).1
      = "Policy interest rate (%)" ∧
    (ensure_indicator_and_alias "policy interest rates"
        (ensure_indicator_and_alias "policy interest rates"
          ⟨[⟨"Policy interest rate (%)", ["taux directeur"]⟩],
           rebuildAliasMap [⟨"Policy interest rate (%)", ["taux directeur"]⟩]⟩).2.2).1
      = "Policy Interest Rate (%)" ∧
    ("Policy interest rate (%)" : String) ≠ "Policy Interest Rate (%)" := by
  exact ⟨by decide, by decide, by decide⟩

end ValuePipeline

namespace ValuePipeline

/-! ### C4: upsert_latest and at-most-once indexing -/

section UpsertLemmas

/-- Invariant of one collection step: the collected keys are exactly the
stable keys of the collected rows. -/
lemma upsertStep_snd (seen : List (String × String × Option ℚ × String × String))
    (acc : List Row × List (String × String × Option ℚ × String × String)) (r : Row)
    (h : acc.2 = acc.1.map upsert_stable_key) :
    (upsertStep seen acc r).2 = (upsertStep seen acc r).1.map upsert_stable_key := by
  unfold upsertStep
  dsimp only
  split_ifs <;> simp [h]

/-- The fold preserves the key invariant. -/
lemma upsertFold_snd (rows : List Row)
    (seen : List (String × String × Option ℚ × String × String))
    (acc : List Row × List (String × String × Option ℚ × String × String))
    (h : acc.2 = acc.1.map upsert_stable_key) :
    (rows.foldl (upsertStep seen) acc).2
      = (rows.foldl (upsertStep seen) acc).1.map upsert_stable_key := by
  induction rows generalizing acc with
  | nil => simpa using h
  | cons r rows ih =>
      simp only [List.foldl_cons]
      exact ih _ (upsertStep_snd seen acc r h)

/-- The collected keys of a run are the stable keys of its collected rows. -/
lemma upsertCollect_snd (rows : List Row)
    (seen : List (String × String × Option ℚ × String × String)) :
    (upsertCollect rows seen).2 = (upsertCollect rows seen).1.map upsert_stable_key :=
  upsertFold_snd rows seen ([], []) rfl

/-- One step never collects a row whose stable key is in the seen set. -/
lemma upsertStep_notin (seen : List (String × String × Option ℚ × String × String))
    (acc : List Row × List (String × String × Option ℚ × String × String)) (r0 : Row)
    (h : ∀ r ∈ acc.1, upsert_stable_key r ∉ seen) :
    ∀ r ∈ (upsertStep seen acc r0).1, upsert_stable_key r ∉ seen := by
  unfold upsertStep
  dsimp only
  split_ifs with h1 h2 h3
  · exact h
  · exact h
  · exact h
  · intro r hr
    rcases List.mem_append.mp hr with hr | hr
    · exact h r hr
    · rcases List.mem_singleton.mp hr with rfl
      exact h1

/-- The fold preserves the not-in-seen invariant. -/
lemma upsertFold_notin (rows : List Row)
    (seen : List (String × String × Option ℚ × String × String))
    (acc : List Row × List (String × String × Option ℚ × String × String))
    (h : ∀ r ∈ acc.1, upsert_stable_key r ∉ seen) :
    ∀ r ∈ (rows.foldl (upsertStep seen) acc).1, upsert_stable_key r ∉ seen := by
  induction rows generalizing acc with
  | nil => simpa using h
  | cons r rows ih =>
      simp only [List.foldl_cons]
      exact ih _ (upsertStep_notin seen acc r h)

/-- No collected row of a run has its stable key in the seen set the run
started from. -/
lemma upsertCollect_notin (rows : List Row)
    (seen : List (String × String × Option ℚ × String × String)) :
    ∀ r ∈ (upsertCollect rows seen).1, upsert_stable_key r ∉ seen :=
  upsertFold_notin rows seen ([], []) (by simp)

/-- Every appended row of a run leaves its stable key in the seen state
the run returns. -/
lemma upsert_latest_key_mem (rows : List Row)
    (seen : List (String × String × Option ℚ × String × String)) (m : Option ℤ) :
    ∀ r ∈ (upsert_latest rows seen m).1,
      upsert_stable_key r ∈ (upsert_latest rows seen m).2.1 := by
  unfold upsert_latest
  dsimp only
  split_ifs with h1 h2
  · simp
  · simp
  · intro r hr
    apply List.mem_append_right
    have hsnd := upsertCollect_snd rows seen
    rcases m with _ | m
    · dsimp only at hr ⊢
      rw [hsnd]
      exact List.mem_map_of_mem upsert_stable_key hr
    · dsimp only at hr ⊢
      split_ifs at hr ⊢ with hm
      · rw [hsnd, ← List.map_take]
        exact List.mem_map_of_mem upsert_stable_key hr
      · rw [hsnd]
        exact List.mem_map_of_mem upsert_stable_key hr

/-- No appended row of a run has its stable key in the seen state the run
started from. -/
lemma upsert_latest_key_fresh (rows : List Row)
    (seen : List (String × String × Option ℚ × String × String)) (m : Option ℤ) :
    ∀ r ∈ (upsert_latest rows seen m).1, upsert_stable_key r ∉ seen := by
  unfold upsert_latest
  dsimp only
  split_ifs with h1 h2
  · simp
  · simp
  · intro r hr
    apply upsertCollect_notin rows seen
    rcases m with _ | m
    · exact hr
    · dsimp only at hr
      split_ifs at hr with hm
      · exact List.mem_of_mem_take hr
      · exact hr

/-- Runs only grow the seen state. -/
lemma upsert_latest_seen_mono (rows : List Row)
    (seen : List (String × String × Option ℚ × String × String)) (m : Option ℤ) :
    ∀ k ∈ seen, k ∈ (upsert_latest rows seen m).2.1 := by
  unfold upsert_latest
  dsimp only
  split_ifs with h1 h2
  · intro k hk; exact hk
  · intro k hk; exact hk
  · intro k hk; exact List.mem_append_left _ hk

end UpsertLemmas

/-- Counterexample to claim C4: the seen set is read once at entry and
not extended inside the per-row loop, so two rows of the SAME run with
equal stable keys are BOTH appended to the index.  With `row` a complete
GDP row, `upsert_latest [row, row] [] none` appends two rows carrying the
same stable key (and returns count 2). -/
theorem C4_counterexample :
    (upsert_latest [⟨"GDP", "", none, none, some 100, "%", "src", "", ""⟩,
                    ⟨"GDP", "", none, none, some 100, "%", "src", "", ""⟩] [] none).1.length = 2 ∧
    upsert_stable_key ⟨"GDP", "", none, none, some 100, "%", "src", "", ""⟩
      = upsert_stable_key ⟨"GDP", "", none, none, some 100, "%", "src", "", ""⟩ ∧
    (upsert_latest [⟨"GDP", "", none, none, some 100, "%", "src", "", ""⟩,
                    ⟨"GDP", "", none, none, some 100, "%", "src", "", ""⟩] [] none).1
      = [⟨"GDP", "", none, none, some 100, "%", "src", "", ""⟩,
         ⟨"GDP", "", none, none, some 100, "%", "src", "", ""⟩] := by
  exact ⟨by decide, rfl, by decide⟩

/-- Claim C4 amended: ACROSS runs the at-most-once guarantee holds (a
stable key appended by one run is in the seen state the next run starts
from, and such keys are always skipped), and the returned count equals
the number of rows appended; within a single run, duplicate stable keys
are not collapsed. -/
theorem C4_cross_run_at_most_once (rows₁ rows₂ : List Row)
    (seen : List (String × String × Option ℚ × String × String)) (m₁ m₂ : Option ℤ) :
    (upsert_latest rows₁ seen m₁).2.2 = (upsert_latest rows₁ seen m₁).1.length ∧
    (∀ r1 ∈ (upsert_latest rows₁ seen m₁).1,
      ∀ r2 ∈ (upsert_latest rows₂ (upsert_latest rows₁ seen m₁).2.1 m₂).1,
        upsert_stable_key r1 ≠ upsert_stable_key r2) := by
  constructor
  · unfold upsert_latest
    dsimp only
    split_ifs <;> simp
  · intro r1 h1 r2 h2
    have hmem := upsert_latest_key_mem rows₁ seen m₁ r1 h1
    have hfresh := upsert_latest_key_fresh rows₂ (upsert_latest rows₁ seen m₁).2.1 m₂ r2 h2
    intro heq
    exact hfresh (heq ▸ hmem)

/-- Witness for the amended C4 theorem: with a GDP row appended by run 1
and a CPI row appended by run 2 (run 2 starting from run 1's returned
seen state), the theorem yields that their stable keys differ. -/
theorem C4_cross_run_at_most_once_witness :
    upsert_stable_key ⟨"GDP", "", none, none, some 100, "%", "s", "", ""⟩
      ≠ upsert_stable_key ⟨"CPI", "", none, none, some 7, "%", "s", "", ""⟩ :=
  (C4_cross_run_at_most_once
      [⟨"GDP", "", none, none, some 100, "%", "s", "", ""⟩]
      [⟨"CPI", "", none, none, some 7, "%", "s", "", ""⟩] [] none none).2
    ⟨"GDP", "", none, none, some 100, "%", "s", "", ""⟩ (by decide)
    ⟨"CPI", "", none, none, some 7, "%", "s", "", ""⟩ (by decide)

end ValuePipeline

namespace ValuePipeline

/-! ### C6: pick_verified_urls never returns an empty list and falls
back to the official hub lists -/

/-- The hub fallback list truncated to a positive length is nonempty. -/
lemma hub_take_ne_nil (q : String) (k : ℕ) (hk : 1 ≤ k) :
    (if looksLikeIca q then ICA_HUB_URLS else DEFAULT_HUB_URLS).take k ≠ [] := by
  split_ifs <;>
    (intro hnil
     rw [List.take_eq_nil_iff] at hnil
     rcases hnil with hnil | hnil
     · omega
     · exact absurd hnil (by decide))

/-- Claim C6: for every question, `top_k >= 1`, discovery flag, score
floor, candidate pool and liveness oracle, `pick_verified_urls` returns
a non-empty list of at most `top_k` URLs; with no candidates, or when
the selection stages pick nothing, it returns the official hub list
truncated to `top_k`. -/
theorem C6_pick_verified_urls_safe (question : String) (top_k : ℕ) (htk : 1 ≤ top_k)
    (allow_discovery : Bool) (min_score : ℚ) (cands : List (String × String))
    (headOk : String → Bool) :
    pick_verified_urls question top_k allow_discovery min_score cands headOk ≠ [] ∧
    (pick_verified_urls question top_k allow_discovery min_score cands headOk).length
      ≤ top_k ∧
    (cands = [] →
      pick_verified_urls question top_k allow_discovery min_score cands headOk
        = (if looksLikeIca question then ICA_HUB_URLS else DEFAULT_HUB_URLS).take top_k) ∧
    (pickUniqStage question top_k allow_discovery min_score cands = [] →
      pick_verified_urls question top_k allow_discovery min_score cands headOk
        = (if looksLikeIca question then ICA_HUB_URLS else DEFAULT_HUB_URLS).take top_k) := by
  by_cases hc : cands = []
  · subst hc
    unfold pick_verified_urls
    rw [if_pos rfl]
    exact ⟨hub_take_ne_nil question top_k htk,
      by rw [List.length_take]; exact min_le_left _ _,
      fun _ => rfl, fun _ => rfl⟩
  · unfold pick_verified_urls
    rw [if_neg hc]
    dsimp only
    refine ⟨?_, ?_, fun hcc => absurd hcc hc, fun huniq => ?_⟩
    · by_cases hv2 :
        (if (pickUniqStage question top_k allow_discovery min_score cands).filter headOk
              = [] ∧ pickUniqStage question top_k allow_discovery min_score cands ≠ []
         then (pickUniqStage question top_k allow_discovery min_score cands).take 1
         else (pickUniqStage question top_k allow_discovery min_score cands).filter headOk)
          = []
      · rw [if_pos hv2, List.take_take, min_self]
        exact hub_take_ne_nil question top_k htk
      · rw [if_neg hv2]
        intro hnil
        rw [List.take_eq_nil_iff] at hnil
        rcases hnil with hnil | hnil
        · omega
        · exact hv2 hnil
    · split_ifs <;> (rw [List.length_take]; exact min_le_left _ _)
    · rw [huniq]
      simp [List.take_take]

/-- Witness for the C6 theorem: at `top_k = 1` with an empty candidate
pool the function returns the first default hub URL. -/
theorem C6_pick_verified_urls_safe_witness :
    pick_verified_urls "gdp of tunisia" 1 false 4 [] (fun _ => false) ≠ [] :=
  (C6_pick_verified_urls_safe "gdp of tunisia" 1 (by decide) false 4 []
    (fun _ => false)).1

end ValuePipeline

namespace ValuePipeline

/-! ### C9: the official-domain margin of _score -/

/-- Two suffixes of one string are nested, so suffix tests against two
incomparable strings cannot both succeed. -/
lemma pyEndsWith_conflict (s a b : String) (ha : pyEndsWith s a = true)
    (hb : pyEndsWith s b = true) (hab : ¬ (a.data <:+ b.data))
    (hba : ¬ (b.data <:+ a.data)) : False := by
  unfold pyEndsWith at ha hb
  have ha2 : a.data <:+ s.data := by simpa using ha
  have hb2 : b.data <:+ s.data := by simpa using hb
  rcases List.suffix_or_suffix_of_suffix ha2 hb2 with h | h
  exacts [hab h, hba h]

/-- An official URL (domain suffix `ins.tn` or `bct.gov.tn`) is never an
aggregator URL: the aggregator suffixes are incomparable with the
official ones. -/
lemma official_not_aggregator (u : String) (h : isOfficial u = true) :
    isAggregator u = false := by
  by_contra hagg
  rw [Bool.not_eq_false] at hagg
  rw [isOfficial, Bool.or_eq_true] at h
  rw [isAggregator] at hagg
  simp only [AGGREGATOR_DOMAINS, List.any_cons, List.any_nil, Bool.or_eq_true,
    Bool.false_eq_true, or_false] at hagg
  rcases h with h | h <;>
    rcases hagg with hg | hg | hg | hg | hg | hg | hg | hg <;>
    exact pyEndsWith_conflict _ _ _ h hg (by decide) (by decide)

/-- Official domains are in the trusted list. -/
lemma trusted_of_official (u : String) (h : isOfficial u = true) :
    isTrusted u = true := by
  rw [isOfficial, Bool.or_eq_true] at h
  rw [isTrusted]
  simp only [TRUSTED_DOMAINS, List.any_cons, List.any_nil, Bool.or_eq_true]
  rcases h with h | h
  · exact Or.inl h
  · exact Or.inr (Or.inl h)

/-- A URL whose domain is exactly `ins.tn` is trusted. -/
lemma trusted_of_domain_ins (u : String) (h : domainOf u = "ins.tn") :
    isTrusted u = true := by
  rw [isTrusted]
  simp only [TRUSTED_DOMAINS, List.any_cons, List.any_nil, Bool.or_eq_true]
  left
  rw [h]
  decide

/-- Counterexample to claim C9: with discovery off, empty snippet and
question, the official candidate `https://ins.tn/a` scores `5` while the
non-trusted `https://2024.example.com/a` scores `2.4` (the domain string
leaks into the recency and URL-year signals: `2024` sits in the host),
so the official candidate is only `2.6` points higher — less than `4`. -/
theorem C9_counterexample :
    isOfficial (pyLower "https://ins.tn/a") = true ∧
    isTrusted (pyLower "https://2024.example.com/a") = false ∧
    urlScore "https://ins.tn/a" "" "" false = 5 ∧
    urlScore "https://2024.example.com/a" "" "" false = 12/5 ∧
    ¬ (urlScore "https://2024.example.com/a" "" "" false + 4
        ≤ urlScore "https://ins.tn/a" "" "" false) :=
  ⟨by decide, by decide, by decide, by decide, by decide⟩

/-- Claim C9 amended: with discovery off, an official candidate scores
at least 4 points above a non-trusted candidate whose URL carries the
SAME domain-independent signals (path hints, recency cue, URL year,
token overlap, file extension and dead-fragment status) — the official
and trusted boosts alone contribute the margin of 5.  Without equalizing
those signals the margin can drop below 4, because the full URL string
(including the domain) feeds the recency, year and token signals. -/
theorem C9_official_margin (u1 u2 snippet question : String)
    (hoff : isOfficial (pyLower u1) = true)
    (htr : isTrusted (pyLower u2) = false)
    (hhint : (GOOD_PATH_HINTS.any fun t => strContains (pyLower u1).data t.data)
       = (GOOD_PATH_HINTS.any fun t => strContains (pyLower u2).data t.data))
    (hrec : recencySearch (pyLower u1) = recencySearch (pyLower u2))
    (hym : firstPathYear (pyLower u1).data = firstPathYear (pyLower u2).data)
    (hov : overlapCount (pyLower question).data (pyLower snippet).data (pyLower u1).data
       = overlapCount (pyLower question).data (pyLower snippet).data (pyLower u2).data)
    (hext : structuredExt (pyLower u1) = structuredExt (pyLower u2))
    (hdead : isDead (pyLower u1) = isDead (pyLower u2)) :
    urlScore u2 snippet question false + 4 ≤ urlScore u1 snippet question false := by
  have hoff2 : isOfficial (pyLower u2) = false := by
    by_contra hh
    rw [Bool.not_eq_false] at hh
    simp [trusted_of_official _ hh] at htr
  have hagg1 : isAggregator (pyLower u1) = false := official_not_aggregator _ hoff
  have hica2 : ¬ (looksLikeIca question = true ∧ domainOf (pyLower u2) = "ins.tn" ∧
      (ICA_URL_PHRASES.any fun p => strContains (pyLower u2).data p.data) = true) := by
    rintro ⟨_, hd, _⟩
    simp [trusted_of_domain_ins _ hd] at htr
  unfold urlScore
  dsimp only
  rw [← hhint, ← hrec, ← hym, ← hov, ← hext, ← hdead]
  rw [if_pos (show ¬ (false : Bool) = true ∧ isOfficial (pyLower u1) = true
        from ⟨by decide, hoff⟩)]
  rw [if_neg (show ¬ (¬ (false : Bool) = true ∧ isOfficial (pyLower u2) = true)
        from fun hh => by simp [hoff2] at hh)]
  rw [if_pos (trusted_of_official _ hoff)]
  rw [if_neg (show ¬ isTrusted (pyLower u2) = true from by simp [htr])]
  rw [if_neg (show ¬ isAggregator (pyLower u1) = true from by simp [hagg1])]
  rw [if_neg hica2]
  by_cases ha2 : isAggregator (pyLower u2) = true
  · rw [if_pos ha2, if_pos (show ¬ (false : Bool) = true from by decide)]
    by_cases hic1 : looksLikeIca question = true ∧ domainOf (pyLower u1) = "ins.tn" ∧
        (ICA_URL_PHRASES.any fun p => strContains (pyLower u1).data p.data) = true
    · rw [if_pos hic1]; linarith
    · rw [if_neg hic1]; linarith
  · rw [if_neg (show ¬ isAggregator (pyLower u2) = true from ha2)]
    by_cases hic1 : looksLikeIca question = true ∧ domainOf (pyLower u1) = "ins.tn" ∧
        (ICA_URL_PHRASES.any fun p => strContains (pyLower u1).data p.data) = true
    · rw [if_pos hic1]; linarith
    · rw [if_neg hic1]; linarith

/-- Witness for the amended C9 theorem: `https://ins.tn/x` (score 5)
against `https://example.com/x` (score 0), both signal-free, with empty
snippet and question. -/
theorem C9_official_margin_witness :
    urlScore "https://example.com/x" "" "" false + 4
      ≤ urlScore "https://ins.tn/x" "" "" false :=
  C9_official_margin "https://ins.tn/x" "https://example.com/x" "" ""
    (by decide) (by decide) (by decide) (by decide) (by decide) (by decide)
    (by decide) (by decide)

end ValuePipeline

namespace ValuePipeline

/-! ### C5 development, part 1: character-level case lemmas -/

section CharLemmas

/-- Evaluation of `Char.ofNat` below the surrogate range. -/
lemma char_toNat_ofNat (n : ℕ) (h : n < 55296) : (Char.ofNat n).toNat = n := by
  have hv : n.isValidChar := Or.inl h
  rw [Char.ofNat, dif_pos hv]
  show (Char.ofNatAux n hv).toNat = n
  rw [Char.ofNatAux, Char.toNat]
  rfl

/-- Characters with equal code points are equal. -/
lemma char_eq_of_toNat {a b : Char} (h : a.toNat = b.toNat) : a = b := by
  apply Char.eq_of_val_eq
  exact UInt32.ext h

/-- Code point of the lowercase map. -/
lemma toNat_pyLowerChar (c : Char) :
    (pyLowerChar c).toNat =
      if 65 ≤ c.toNat ∧ c.toNat ≤ 90 then c.toNat + 32
      else if 0xC0 ≤ c.toNat ∧ c.toNat ≤ 0xDE ∧ c.toNat ≠ 0xD7 then c.toNat + 32
      else c.toNat := by
  unfold pyLowerChar
  split_ifs with h1 h2 <;> first
    | rfl
    | (apply char_toNat_ofNat; omega)

/-- Code point of the uppercase map. -/
lemma toNat_pyUpperChar (c : Char) :
    (pyUpperChar c).toNat =
      if 97 ≤ c.toNat ∧ c.toNat ≤ 122 then c.toNat - 32
      else if 0xE0 ≤ c.toNat ∧ c.toNat ≤ 0xFE ∧ c.toNat ≠ 0xF7 ∧ c.toNat ≠ 0xDF then
        c.toNat - 32
      else c.toNat := by
  unfold pyUpperChar
  split_ifs with h1 h2 <;> first
    | rfl
    | (apply char_toNat_ofNat; omega)

/-- Lowercasing is idempotent. -/
lemma pyLowerChar_idem (c : Char) : pyLowerChar (pyLowerChar c) = pyLowerChar c := by
  apply char_eq_of_toNat
  rw [toNat_pyLowerChar (pyLowerChar c), toNat_pyLowerChar c]
  split_ifs <;> omega

/-- Lowercasing after uppercasing equals plain lowercasing. -/
lemma pyLowerChar_pyUpperChar (c : Char) :
    pyLowerChar (pyUpperChar c) = pyLowerChar c := by
  apply char_eq_of_toNat
  rw [toNat_pyLowerChar (pyUpperChar c), toNat_pyLowerChar c, toNat_pyUpperChar c]
  split_ifs <;> omega

/-- The uppercase map is determined by the lowercase image. -/
lemma pyUpperChar_congr {a b : Char} (h : pyLowerChar a = pyLowerChar b) :
    pyUpperChar a = pyUpperChar b := by
  have ht : (pyLowerChar a).toNat = (pyLowerChar b).toNat := by rw [h]
  rw [toNat_pyLowerChar, toNat_pyLowerChar] at ht
  apply char_eq_of_toNat
  rw [toNat_pyUpperChar, toNat_pyUpperChar]
  split_ifs at ht ⊢ <;> omega

/-- Whitespace class is invariant under the lowercase map. -/
lemma pyIsSpace_pyLowerChar (c : Char) : pyIsSpace (pyLowerChar c) = pyIsSpace c := by
  unfold pyIsSpace
  rw [toNat_pyLowerChar]
  simp only [decide_eq_decide]
  split_ifs <;> omega

/-- Whitespace class is invariant under the uppercase map. -/
lemma pyIsSpace_pyUpperChar (c : Char) : pyIsSpace (pyUpperChar c) = pyIsSpace c := by
  unfold pyIsSpace
  rw [toNat_pyUpperChar]
  simp only [decide_eq_decide]
  split_ifs <;> omega

end CharLemmas

end ValuePipeline

namespace ValuePipeline

/-- ASCII folding is invariant under the lowercase map. -/
lemma asciiFoldLower_pyLowerChar (c : Char) :
    asciiFoldLower (pyLowerChar c) = asciiFoldLower c := by
  by_cases h1 : 65 ≤ c.toNat ∧ c.toNat ≤ 90
  · have ht : (pyLowerChar c).toNat = c.toNat + 32 := by
      rw [toNat_pyLowerChar, if_pos h1]
    unfold asciiFoldLower
    dsimp only
    rw [ht, pyLowerChar_idem]
    rw [if_pos (show c.toNat + 32 < 128 by omega), if_pos (show c.toNat < 128 by omega)]
  · by_cases h2 : 0xC0 ≤ c.toNat ∧ c.toNat ≤ 0xDE ∧ c.toNat ≠ 0xD7
    · have ht : (pyLowerChar c).toNat = c.toNat + 32 := by
        rw [toNat_pyLowerChar, if_neg h1, if_pos h2]
      unfold asciiFoldLower
      dsimp only
      rw [ht]
      rw [if_neg (show ¬ (c.toNat + 32 < 128) by omega),
        if_neg (show ¬ (c.toNat < 128) by omega)]
      obtain ⟨ha, hb, hc2⟩ := h2
      set n := c.toNat with hn
      interval_cases n <;> decide
    · have ht : pyLowerChar c = c := by
        unfold pyLowerChar
        rw [if_neg h1, if_neg h2]
      rw [ht]

/-- ASCII folding is invariant under the uppercase map. -/
lemma asciiFoldLower_pyUpperChar (c : Char) :
    asciiFoldLower (pyUpperChar c) = asciiFoldLower c := by
  by_cases h1 : 97 ≤ c.toNat ∧ c.toNat ≤ 122
  · have ht : (pyUpperChar c).toNat = c.toNat - 32 := by
      rw [toNat_pyUpperChar, if_pos h1]
    unfold asciiFoldLower
    dsimp only
    rw [ht, pyLowerChar_pyUpperChar]
    rw [if_pos (show c.toNat - 32 < 128 by omega), if_pos (show c.toNat < 128 by omega)]
  · by_cases h2 : 0xE0 ≤ c.toNat ∧ c.toNat ≤ 0xFE ∧ c.toNat ≠ 0xF7 ∧ c.toNat ≠ 0xDF
    · have ht : (pyUpperChar c).toNat = c.toNat - 32 := by
        rw [toNat_pyUpperChar, if_neg h1, if_pos h2]
      unfold asciiFoldLower
      dsimp only
      rw [ht]
      rw [if_neg (show ¬ (c.toNat - 32 < 128) by omega),
        if_neg (show ¬ (c.toNat < 128) by omega)]
      obtain ⟨ha, hb, hc2, hd2⟩ := h2
      set n := c.toNat with hn
      interval_cases n <;> decide
    · have ht : pyUpperChar c = c := by
        unfold pyUpperChar
        rw [if_neg h1, if_neg h2]
      rw [ht]

end ValuePipeline

namespace ValuePipeline

/-! ### C5 development, part 2: string-level lemmas -/

section StringLemmas

/-- A list whose mapped head is not `true` is untouched by `dropWhile`. -/
lemma dropWhile_self_of_head (p : Char → Bool) (l : List Char)
    (h : (l.map p).head? ≠ some true) : l.dropWhile p = l := by
  cases l with
  | nil => rfl
  | cons c cs =>
      apply List.dropWhile_cons_of_neg
      intro hc
      exact h (by simp [hc])

/-- Conversely, a `dropWhile` fixed point has no `true` at the head. -/
lemma head_not_true_of_dropWhile_self (p : Char → Bool) (l : List Char)
    (h : l.dropWhile p = l) : (l.map p).head? ≠ some true := by
  cases l with
  | nil => simp
  | cons c cs =>
      intro hh
      simp only [List.map_cons, List.head?_cons, Option.some.injEq] at hh
      rw [List.dropWhile_cons_of_pos hh] at h
      have hle := (List.dropWhile_suffix (l := cs) p).length_le
      have := congrArg List.length h
      simp at this
      omega

/-- The head left by a `dropWhile` fails the predicate. -/
lemma head_dropWhile_false (p : Char → Bool) (l : List Char) (c : Char) (cs : List Char)
    (h : l.dropWhile p = c :: cs) : p c = false := by
  have hne : l.dropWhile p ≠ [] := by rw [h]; simp
  have hc := List.head_dropWhile_not p l hne
  have hcc : (l.dropWhile p).head hne = c := by
    have h2 : (l.dropWhile p).head? = some c := by rw [h]; rfl
    rw [List.head?_eq_head hne] at h2
    exact Option.some.inj h2
  rwa [hcc] at hc

/-- Dropping a prefix twice is the same as dropping it once. -/
lemma dropWhile_self_idem (p : Char → Bool) (l : List Char) :
    (l.dropWhile p).dropWhile p = l.dropWhile p := by
  rcases hA : l.dropWhile p with _ | ⟨c, cs⟩
  · rfl
  · exact List.dropWhile_cons_of_neg (by simp [head_dropWhile_false p l c cs hA])

/-- A list is its own strip if `dropWhile` fixes it on both ends. -/
lemma pyStrip_self_of_parts (l : List Char) (h1 : l.dropWhile pyIsSpace = l)
    (h2 : l.reverse.dropWhile pyIsSpace = l.reverse) : pyStripList l = l := by
  unfold pyStripList
  rw [h1, h2, List.reverse_reverse]

/-- A strip fixed point is a `dropWhile` fixed point on both ends. -/
lemma pyStrip_self_parts (l : List Char) (h : pyStripList l = l) :
    l.dropWhile pyIsSpace = l ∧ l.reverse.dropWhile pyIsSpace = l.reverse := by
  have hA : l.dropWhile pyIsSpace <:+ l := List.dropWhile_suffix pyIsSpace
  have hlen := congrArg List.length h
  unfold pyStripList at hlen
  simp only [List.length_reverse] at hlen
  have l1 : (l.dropWhile pyIsSpace).length ≤ l.length := hA.length_le
  have l2 : ((l.dropWhile pyIsSpace).reverse.dropWhile pyIsSpace).length
      ≤ (l.dropWhile pyIsSpace).length := by
    simpa using
      (List.dropWhile_suffix (l := (l.dropWhile pyIsSpace).reverse) pyIsSpace).length_le
  have e1 : (l.dropWhile pyIsSpace).length = l.length := by omega
  have hdw : l.dropWhile pyIsSpace = l := hA.eq_of_length e1
  refine ⟨hdw, ?_⟩
  unfold pyStripList at h
  rw [hdw] at h
  have := congrArg List.reverse h
  simpa using this

/-- Stripping is idempotent. -/
lemma pyStripList_idem (l : List Char) :
    pyStripList (pyStripList l) = pyStripList l := by
  apply pyStrip_self_of_parts
  · apply dropWhile_self_of_head
    unfold pyStripList
    rcases hB : (l.dropWhile pyIsSpace).reverse.dropWhile pyIsSpace with _ | ⟨d, ds⟩
    · simp
    · rw [List.map_reverse, List.head?_reverse, List.getLast?_map]
      rcases hA : l.dropWhile pyIsSpace with _ | ⟨c, cs⟩
      · rw [hA] at hB
        simp at hB
      · have hsuf : (d :: ds) <:+ (l.dropWhile pyIsSpace).reverse := by
          rw [← hB]
          exact List.dropWhile_suffix pyIsSpace
        obtain ⟨pre, hpre⟩ := hsuf
        have hlast : (d :: ds).getLast? = (l.dropWhile pyIsSpace).reverse.getLast? := by
          rw [← hpre, List.getLast?_append]
          rcases hgl : (d :: ds).getLast? with _ | x
          · simp at hgl
          · rfl
        rw [List.getLast?_reverse, hA, List.head?_cons] at hlast
        rw [hlast]
        simp [head_dropWhile_false pyIsSpace l c cs hA]
  · unfold pyStripList
    rw [List.reverse_reverse]
    exact dropWhile_self_idem pyIsSpace _

end StringLemmas

end ValuePipeline

namespace ValuePipeline

/-- Lowercasing erases the case changes of Python `str.title`. -/
lemma pyTitleGo_map_lower (l : List Char) (b : Bool) :
    (pyTitleGo l b).map pyLowerChar = l.map pyLowerChar := by
  induction l generalizing b with
  | nil => rfl
  | cons c cs ih =>
      unfold pyTitleGo
      simp only [List.map_cons]
      rw [ih]
      congr 1
      split_ifs with h1 h2
      · exact pyLowerChar_idem c
      · exact pyLowerChar_pyUpperChar c
      · rfl

/-- Python `str.title` does not move whitespace. -/
lemma pyTitleGo_map_isSpace (l : List Char) (b : Bool) :
    (pyTitleGo l b).map pyIsSpace = l.map pyIsSpace := by
  induction l generalizing b with
  | nil => rfl
  | cons c cs ih =>
      unfold pyTitleGo
      simp only [List.map_cons]
      rw [ih]
      congr 1
      split_ifs with h1 h2
      · exact pyIsSpace_pyLowerChar c
      · exact pyIsSpace_pyUpperChar c
      · rfl

/-- Python `str.title` preserves length. -/
lemma pyTitleGo_length (l : List Char) (b : Bool) :
    (pyTitleGo l b).length = l.length := by
  have := congrArg List.length (pyTitleGo_map_lower l b)
  simpa using this

/-- Python `str.title` of a stripped string is stripped. -/
lemma pyStripList_pyTitleGo (l : List Char) (b : Bool) (h : pyStripList l = l) :
    pyStripList (pyTitleGo l b) = pyTitleGo l b := by
  obtain ⟨h1, h2⟩ := pyStrip_self_parts l h
  apply pyStrip_self_of_parts
  · apply dropWhile_self_of_head
    rw [pyTitleGo_map_isSpace]
    exact head_not_true_of_dropWhile_self _ _ h1
  · apply dropWhile_self_of_head
    rw [List.map_reverse, pyTitleGo_map_isSpace, ← List.map_reverse]
    exact head_not_true_of_dropWhile_self _ _ h2

end ValuePipeline

namespace ValuePipeline

/-- The normalized key of a string depends only on its lowercased data. -/
lemma pyNorm_congr (a b : String) (h : a.data.map pyLowerChar = b.data.map pyLowerChar) :
    pyNorm a = pyNorm b := by
  unfold pyNorm
  rw [h]

/-- Title-casing does not change the normalized key. -/
lemma pyNorm_pyTitle (s : String) : pyNorm (pyTitle s) = pyNorm s :=
  pyNorm_congr _ _ (pyTitleGo_map_lower s.data false)

/-- Title-casing commutes away under ASCII folding. -/
lemma flatMap_fold_pyTitleGo (l : List Char) (b : Bool) :
    (pyTitleGo l b).flatMap asciiFoldLower = l.flatMap asciiFoldLower := by
  induction l generalizing b with
  | nil => rfl
  | cons c cs ih =>
      unfold pyTitleGo
      simp only [List.flatMap_cons]
      rw [ih]
      congr 1
      split_ifs with h1 h2
      · exact asciiFoldLower_pyLowerChar c
      · exact asciiFoldLower_pyUpperChar c
      · rfl

/-- Title-casing does not change the builder key. -/
lemma buildNorm_pyTitle (s : String) : buildNorm (pyTitle s) = buildNorm s := by
  unfold buildNorm
  show (⟨pyStripList ((pyTitleGo s.data false).flatMap asciiFoldLower)⟩ : String) = _
  rw [flatMap_fold_pyTitleGo]

/-- Whitespace class is determined by the lowercased character. -/
lemma pyIsSpace_of_lower_eq {a b : Char} (h : pyLowerChar a = pyLowerChar b) :
    pyIsSpace a = pyIsSpace b := by
  rw [← pyIsSpace_pyLowerChar a, ← pyIsSpace_pyLowerChar b, h]

/-- Whitespace dropping in lockstep on strings with equal lowercase data. -/
lemma map_lower_dropWhile_congr : ∀ (x y : List Char),
    x.map pyLowerChar = y.map pyLowerChar →
    (x.dropWhile pyIsSpace).map pyLowerChar = (y.dropWhile pyIsSpace).map pyLowerChar
  | [], [], _ => rfl
  | [], _ :: _, h => by simp at h
  | _ :: _, [], h => by simp at h
  | c :: cs, d :: ds, h => by
      simp only [List.map_cons, List.cons.injEq] at h
      obtain ⟨hc, hcs⟩ := h
      have hp : pyIsSpace c = pyIsSpace d := pyIsSpace_of_lower_eq hc
      by_cases hpc : pyIsSpace c = true
      · rw [List.dropWhile_cons_of_pos hpc, List.dropWhile_cons_of_pos (hp ▸ hpc)]
        exact map_lower_dropWhile_congr cs ds hcs
      · rw [List.dropWhile_cons_of_neg hpc,
          List.dropWhile_cons_of_neg (by rw [← hp]; exact hpc)]
        simp only [List.map_cons, hc, hcs]

/-- Stripping in lockstep on strings with equal lowercase data. -/
lemma map_lower_pyStrip_congr (x y : List Char)
    (h : x.map pyLowerChar = y.map pyLowerChar) :
    (pyStripList x).map pyLowerChar = (pyStripList y).map pyLowerChar := by
  unfold pyStripList
  have h1 := map_lower_dropWhile_congr x y h
  have h2 : (x.dropWhile pyIsSpace).reverse.map pyLowerChar
      = (y.dropWhile pyIsSpace).reverse.map pyLowerChar := by
    rw [List.map_reverse, List.map_reverse, h1]
  have h3 := map_lower_dropWhile_congr _ _ h2
  rw [List.map_reverse, List.map_reverse, h3]

/-- Whitespace splitting in lockstep on strings with equal lowercase
data: the chunks correspond and have equal lowercase data. -/
lemma splitOnP_map_lower_congr : ∀ (x y : List Char),
    x.map pyLowerChar = y.map pyLowerChar →
    List.Forall₂ (fun w1 w2 => w1.map pyLowerChar = w2.map pyLowerChar)
      (x.splitOnP pyIsSpace) (y.splitOnP pyIsSpace)
  | [], [], _ => List.Forall₂.cons rfl List.Forall₂.nil
  | [], _ :: _, h => by simp at h
  | _ :: _, [], h => by simp at h
  | c :: cs, d :: ds, h => by
      simp only [List.map_cons, List.cons.injEq] at h
      obtain ⟨hc, hcs⟩ := h
      have hp : pyIsSpace c = pyIsSpace d := pyIsSpace_of_lower_eq hc
      have ih := splitOnP_map_lower_congr cs ds hcs
      rw [List.splitOnP_cons, List.splitOnP_cons]
      by_cases hpc : pyIsSpace c = true
      · rw [if_pos hpc, if_pos (by rw [← hp]; exact hpc)]
        exact List.Forall₂.cons rfl ih
      · rw [if_neg hpc, if_neg (by rw [← hp]; exact hpc)]
        rcases h1 : cs.splitOnP pyIsSpace with _ | ⟨w1, t1⟩
        · exact absurd h1 (List.splitOnP_ne_nil _ cs)
        rcases h2 : ds.splitOnP pyIsSpace with _ | ⟨w2, t2⟩
        · exact absurd h2 (List.splitOnP_ne_nil _ ds)
        rw [h1, h2] at ih
        cases ih with
        | cons hw ht =>
            simp only [List.modifyHead]
            exact List.Forall₂.cons (by simp [hc, hw]) ht

/-- Dropping empty chunks preserves the chunk correspondence. -/
lemma filter_ne_nil_congr : ∀ {l1 l2 : List (List Char)},
    List.Forall₂ (fun w1 w2 => w1.map pyLowerChar = w2.map pyLowerChar) l1 l2 →
    List.Forall₂ (fun w1 w2 => w1.map pyLowerChar = w2.map pyLowerChar)
      (l1.filter (fun w => w ≠ [])) (l2.filter (fun w => w ≠ [])) := by
  intro l1 l2 h
  induction h with
  | nil => exact List.Forall₂.nil
  | cons hw ht ih =>
      rename_i w1 w2 t1 t2
      have hlen : w1.length = w2.length := by
        have := congrArg List.length hw
        simpa using this
      by_cases h1 : w1 = []
      · have h2 : w2 = [] := by
          subst h1
          simp only [List.length_nil] at hlen
          exact List.eq_nil_of_length_eq_zero hlen.symm
        rw [List.filter_cons_of_neg (by simp [h1]),
          List.filter_cons_of_neg (by simp [h2])]
        exact ih
      · have h2 : w2 ≠ [] := by
          intro hh
          rw [hh, List.length_nil] at hlen
          exact h1 (List.eq_nil_of_length_eq_zero hlen)
        rw [List.filter_cons_of_pos (by simp [h1]),
          List.filter_cons_of_pos (by simp [h2])]
        exact List.Forall₂.cons hw ih

/-- Capitalization is determined by the lowercase data of the word. -/
lemma pyCapitalize_congr {w1 w2 : List Char}
    (h : w1.map pyLowerChar = w2.map pyLowerChar) : pyCapitalize w1 = pyCapitalize w2 := by
  cases w1 with
  | nil =>
      cases w2 with
      | nil => rfl
      | cons d ds => simp at h
  | cons c cs =>
      cases w2 with
      | nil => simp at h
      | cons d ds =>
          simp only [List.map_cons, List.cons.injEq] at h
          obtain ⟨hc, hcs⟩ := h
          unfold pyCapitalize
          dsimp only
          rw [pyUpperChar_congr hc, hcs]

/-- Corresponding chunk lists capitalize to equal lists. -/
lemma map_pyCapitalize_congr {l1 l2 : List (List Char)}
    (h : List.Forall₂ (fun w1 w2 => w1.map pyLowerChar = w2.map pyLowerChar) l1 l2) :
    l1.map pyCapitalize = l2.map pyCapitalize := by
  induction h with
  | nil => rfl
  | cons hw ht ih =>
      simp only [List.map_cons]
      rw [pyCapitalize_congr hw, ih]

/-- The canonical title form is determined by the lowercase data. -/
lemma title_case_indicator_congr (a b : String)
    (h : a.data.map pyLowerChar = b.data.map pyLowerChar) :
    title_case_indicator a = title_case_indicator b := by
  unfold title_case_indicator pySplitWs
  have hstrip := map_lower_pyStrip_congr a.data b.data h
  have hsplit := splitOnP_map_lower_congr _ _ hstrip
  have hfil := filter_ne_nil_congr hsplit
  rw [map_pyCapitalize_congr hfil]

end ValuePipeline

namespace ValuePipeline

/-! ### C5 development, part 3: fuzzy-scan lemmas -/

section FuzzLemmas

/-- One scoring step never lowers the best score. -/
lemma fuzzStep_ge (key : String) (acc : Option String × ℚ) (item : TaxEntry) :
    acc.2 ≤ (fuzzStep key acc item).2 := by
  unfold fuzzStep
  dsimp only
  split_ifs with h1 h2
  · exact le_refl _
  · exact le_of_lt h2
  · exact le_refl _

/-- The fold never lowers the best score. -/
lemma fuzzFold_ge (key : String) (tax : List TaxEntry) (acc : Option String × ℚ) :
    acc.2 ≤ (tax.foldl (fuzzStep key) acc).2 := by
  induction tax generalizing acc with
  | nil => exact le_refl _
  | cons it tax ih => exact le_trans (fuzzStep_ge key acc it) (ih _)

/-- The final best score dominates the score of every scanned entry with
a non-empty stripped canonical name. -/
lemma fuzzFold_bound (key : String) (tax : List TaxEntry) (acc : Option String × ℚ) :
    ∀ it ∈ tax, pyStrip it.canonicalName ≠ "" →
      fuzzRatio (pyNorm (pyStrip it.canonicalName)) key ≤ (tax.foldl (fuzzStep key) acc).2 := by
  induction tax generalizing acc with
  | nil => intro it hit; exact absurd hit (List.not_mem_nil it)
  | cons it0 tax ih =>
      intro it hit hne
      simp only [List.foldl_cons]
      rcases List.mem_cons.mp hit with rfl | hit2
      · refine le_trans ?_ (fuzzFold_ge key tax (fuzzStep key acc it))
        unfold fuzzStep
        dsimp only
        rw [if_neg hne]
        split_ifs with h2
        · exact le_refl _
        · exact le_of_not_lt h2
      · exact ih _ it hit2 hne

/-- A best name produced by the fold is the non-empty stripped canonical
name of a scanned entry, unless it was already in the accumulator. -/
lemma fuzzFold_some (key : String) (tax : List TaxEntry) (acc : Option String × ℚ) :
    ∀ n, (tax.foldl (fuzzStep key) acc).1 = some n →
      acc.1 = some n ∨ ∃ it ∈ tax, n = pyStrip it.canonicalName ∧ n ≠ "" := by
  induction tax generalizing acc with
  | nil => intro n h; exact Or.inl h
  | cons it0 tax ih =>
      intro n h
      simp only [List.foldl_cons] at h
      rcases ih _ n h with h1 | ⟨it, hit, h2⟩
      · unfold fuzzStep at h1
        dsimp only at h1
        split_ifs at h1 with ha hb
        · exact Or.inl h1
        · rcases Option.some.inj h1 with rfl
          exact Or.inr ⟨it0, List.mem_cons_self it0 tax, rfl, ha⟩
        · exact Or.inl h1
      · exact Or.inr ⟨it, List.mem_cons_of_mem it0 hit, h2⟩

/-- A fold whose best name is `none` never recorded a score, so it is
still the initial accumulator. -/
lemma fuzzFold_none (key : String) (tax : List TaxEntry) (acc : Option String × ℚ)
    (h : (tax.foldl (fuzzStep key) acc).1 = none) :
    tax.foldl (fuzzStep key) acc = acc := by
  induction tax generalizing acc with
  | nil => rfl
  | cons it0 tax ih =>
      simp only [List.foldl_cons] at h ⊢
      have h2 := ih (fuzzStep key acc it0) h
      rw [h2] at h ⊢
      unfold fuzzStep at h ⊢
      dsimp only at h ⊢
      split_ifs at h ⊢ <;> rfl

/-- The scanned-entry congruence: the fold depends only on the stripped
canonical names. -/
lemma fuzzFold_congr (key : String) : ∀ (t1 t2 : List TaxEntry) (acc : Option String × ℚ),
    t1.map (fun it => pyStrip it.canonicalName) = t2.map (fun it => pyStrip it.canonicalName) →
    t1.foldl (fuzzStep key) acc = t2.foldl (fuzzStep key) acc
  | [], [], _, _ => rfl
  | [], _ :: _, _, h => by simp at h
  | _ :: _, [], _, h => by simp at h
  | it1 :: t1, it2 :: t2, acc, h => by
      simp only [List.map_cons, List.cons.injEq] at h
      obtain ⟨hc, ht⟩ := h
      simp only [List.foldl_cons]
      rw [show fuzzStep key acc it1 = fuzzStep key acc it2 by unfold fuzzStep; rw [hc]]
      exact fuzzFold_congr key t1 t2 _ ht

end FuzzLemmas

end ValuePipeline

namespace ValuePipeline

/-! ### C5 development, part 4: alias-map builder lemmas -/

section BuilderLemmas

/-- Lookup in a cons whose head key matches. -/
lemma lookupMap_cons_of_eq (kv : String × String) (s : List (String × String)) (k : String)
    (h : kv.1 = k) : lookupMap (kv :: s) k = some kv.2 := by
  unfold lookupMap
  rw [List.find?_cons_of_pos _ (by simp [h])]
  rfl

/-- Lookup in a cons whose head key differs. -/
lemma lookupMap_cons_of_ne (kv : String × String) (s : List (String × String)) (k : String)
    (h : kv.1 ≠ k) : lookupMap (kv :: s) k = lookupMap s k := by
  unfold lookupMap
  rw [List.find?_cons_of_neg _ (by simp [h])]

/-- Lookup distributes over append as a left-biased choice. -/
lemma lookupMap_append (m1 m2 : List (String × String)) (k : String) :
    lookupMap (m1 ++ m2) k = (lookupMap m1 k).or (lookupMap m2 k) := by
  unfold lookupMap
  rw [List.find?_append]
  cases m1.find? (fun p => p.1 = k) <;> rfl

/-- Characterization of a failed lookup. -/
lemma lookupMap_eq_none_iff (m : List (String × String)) (k : String) :
    lookupMap m k = none ↔ ∀ p ∈ m, ¬ (p.1 = k) := by
  unfold lookupMap
  rw [Option.map_eq_none']
  rw [List.find?_eq_none]
  simp

/-- A successful key test under `any` means the lookup succeeds. -/
lemma lookupMap_ne_none_of_any (m : List (String × String)) (k : String)
    (h : m.any (fun p => p.1 = k) = true) : lookupMap m k ≠ none := by
  intro hn
  rw [lookupMap_eq_none_iff] at hn
  rcases List.any_eq_true.mp h with ⟨p, hp, hpk⟩
  exact hn p hp (by simpa using hpk)

/-- A failed key test under `any` means the lookup fails. -/
lemma lookupMap_none_of_not_any (m : List (String × String)) (k : String)
    (h : ¬ m.any (fun p => p.1 = k) = true) : lookupMap m k = none := by
  rw [lookupMap_eq_none_iff]
  intro p hp hpk
  exact h (List.any_eq_true.mpr ⟨p, hp, by simp [hpk]⟩)

/-- Lookup after a fold of first-wins insertions: the accumulated map is
consulted first, then the stream in order. -/
lemma lookup_insertFold (s : List (String × String)) :
    ∀ (m : List (String × String)) (k : String),
    lookupMap (s.foldl insertIfNew m) k = (lookupMap m k).or (lookupMap s k) := by
  induction s with
  | nil =>
      intro m k
      simp only [List.foldl_nil]
      rcases lookupMap m k with _ | v <;> rfl
  | cons kv s ih =>
      intro m k
      simp only [List.foldl_cons]
      rw [ih]
      unfold insertIfNew
      by_cases hany : m.any (fun p => p.1 = kv.1) = true
      · rw [if_pos hany]
        by_cases hk : kv.1 = k
        · subst hk
          rcases ho : lookupMap m kv.1 with _ | v
          · exact absurd ho (lookupMap_ne_none_of_any m kv.1 hany)
          · rw [lookupMap_cons_of_eq kv s kv.1 rfl]
            rfl
        · rw [lookupMap_cons_of_ne kv s k hk]
      · rw [if_neg hany]
        rw [lookupMap_append]
        by_cases hk : kv.1 = k
        · subst hk
          rw [lookupMap_none_of_not_any m kv.1 hany]
          rw [lookupMap_cons_of_eq kv [] kv.1 rfl, lookupMap_cons_of_eq kv s kv.1 rfl]
          rfl
        · rw [lookupMap_cons_of_ne kv [] k hk, lookupMap_cons_of_ne kv s k hk]
          rw [show lookupMap [] k = none from rfl, Option.or_none]

/-- The builder fold is the first-wins insertion fold over the pair
stream. -/
lemma rebuild_fold_general : ∀ (tax : List TaxEntry) (m : List (String × String)),
    tax.foldl
      (fun m item =>
        let craw := pyStrip item.canonicalName
        if craw = "" then m
        else
          (item.aliases ++ [craw]).foldl
            (fun m al => insertIfNew m (buildNorm al, title_case_indicator craw))
            m)
      m
      = (buildStream tax).foldl insertIfNew m := by
  intro tax
  induction tax with
  | nil => intro m; rfl
  | cons item tax ih =>
      intro m
      simp only [List.foldl_cons]
      rw [ih]
      have hacc : (if pyStrip item.canonicalName = "" then m
          else List.foldl
            (fun m al => insertIfNew m (buildNorm al, title_case_indicator (pyStrip item.canonicalName)))
            m (item.aliases ++ [pyStrip item.canonicalName]))
          = List.foldl insertIfNew m
              (if pyStrip item.canonicalName = "" then []
               else (item.aliases ++ [pyStrip item.canonicalName]).map
                 (fun al => (buildNorm al, title_case_indicator (pyStrip item.canonicalName)))) := by
        by_cases hc : pyStrip item.canonicalName = ""
        · rw [if_pos hc, if_pos hc]
          rfl
        · rw [if_neg hc, if_neg hc, List.foldl_map]
      rw [hacc]
      rw [show buildStream (item :: tax)
          = (if pyStrip item.canonicalName = "" then []
             else (item.aliases ++ [pyStrip item.canonicalName]).map
               (fun al => (buildNorm al, title_case_indicator (pyStrip item.canonicalName))))
            ++ buildStream tax from by
        unfold buildStream
        rw [List.flatMap_cons]]
      rw [List.foldl_append]

/-- The alias map built from a taxonomy. -/
lemma rebuild_eq_stream (tax : List TaxEntry) :
    rebuildAliasMap tax = (buildStream tax).foldl insertIfNew [] := by
  unfold rebuildAliasMap
  exact rebuild_fold_general tax []

/-- Lookup in the rebuilt alias map is first-claimant lookup in the pair
stream. -/
lemma lookup_rebuild (tax : List TaxEntry) (k : String) :
    lookupMap (rebuildAliasMap tax) k = lookupMap (buildStream tax) k := by
  rw [rebuild_eq_stream, lookup_insertFold]
  rfl

/-- The pair stream distributes over taxonomy concatenation. -/
lemma buildStream_append (t1 t2 : List TaxEntry) :
    buildStream (t1 ++ t2) = buildStream t1 ++ buildStream t2 := by
  unfold buildStream
  exact List.flatMap_append t1 t2 _

end BuilderLemmas

end ValuePipeline

namespace ValuePipeline

/-! ### C5 development, part 5: branch characterizations and glue -/

section EnsureBranches

/-- Resolution of a blank phrase. -/
lemma ensure_blank (al : String) (S : TaxState) (h : pyStrip al = "") :
    ensure_indicator_and_alias al S = ("", false, S) := by
  unfold ensure_indicator_and_alias
  rw [h]
  rfl

/-- Resolution through the exact alias-map hit (step 1). -/
lemma ensure_hit (al : String) (S : TaxState) (c : String) (h : ¬ pyStrip al = "")
    (hm : lookupMap S.aliasMap (pyNorm (pyStrip al)) = some c) :
    ensure_indicator_and_alias al S = (c, false, S) := by
  unfold ensure_indicator_and_alias
  rw [if_neg h]
  dsimp only
  rw [hm]

/-- Resolution through a fuzzy match whose item already carries the
phrase as an alias (step 2, no mutation). -/
lemma ensure_fuzzy_known (al : String) (S : TaxState) (bn : String) (i : ℕ)
    (h : ¬ pyStrip al = "")
    (hm : lookupMap S.aliasMap (pyNorm (pyStrip al)) = none)
    (hb1 : (fuzzBest S.taxonomy (pyNorm (pyStrip al))).1 = some bn)
    (hsc : 88 ≤ (fuzzBest S.taxonomy (pyNorm (pyStrip al))).2)
    (hidx : S.taxonomy.findIdx?
        (fun it => pyLower (pyStrip it.canonicalName) = pyLower bn) = some i)
    (hal : pyStrip al ∈ (S.taxonomy.getD i default).aliases) :
    ensure_indicator_and_alias al S = (bn, false, S) := by
  unfold ensure_indicator_and_alias
  rw [if_neg h]
  dsimp only
  rw [hm]
  dsimp only
  rw [hb1]
  dsimp only
  rw [if_pos hsc, hidx]
  dsimp only
  rw [if_pos hal]

/-- Resolution through a fuzzy match that attaches the phrase as a new
alias (step 2, mutation). -/
lemma ensure_fuzzy_attach (al : String) (S : TaxState) (bn : String) (i : ℕ)
    (h : ¬ pyStrip al = "")
    (hm : lookupMap S.aliasMap (pyNorm (pyStrip al)) = none)
    (hb1 : (fuzzBest S.taxonomy (pyNorm (pyStrip al))).1 = some bn)
    (hsc : 88 ≤ (fuzzBest S.taxonomy (pyNorm (pyStrip al))).2)
    (hidx : S.taxonomy.findIdx?
        (fun it => pyLower (pyStrip it.canonicalName) = pyLower bn) = some i)
    (hal : ¬ pyStrip al ∈ (S.taxonomy.getD i default).aliases) :
    ensure_indicator_and_alias al S
      = (bn, true,
         ⟨S.taxonomy.set i
            { S.taxonomy.getD i default with
                aliases := (S.taxonomy.getD i default).aliases ++ [pyStrip al] },
          rebuildAliasMap
            (S.taxonomy.set i
              { S.taxonomy.getD i default with
                  aliases := (S.taxonomy.getD i default).aliases ++ [pyStrip al] })⟩) := by
  unfold ensure_indicator_and_alias
  rw [if_neg h]
  dsimp only
  rw [hm]
  dsimp only
  rw [hb1]
  dsimp only
  rw [if_pos hsc, hidx]
  dsimp only
  rw [if_neg hal]

/-- Resolution through creation when the fuzzy best is below threshold. -/
lemma ensure_create_low (al : String) (S : TaxState) (bn : String)
    (h : ¬ pyStrip al = "")
    (hm : lookupMap S.aliasMap (pyNorm (pyStrip al)) = none)
    (hb1 : (fuzzBest S.taxonomy (pyNorm (pyStrip al))).1 = some bn)
    (hsc : ¬ 88 ≤ (fuzzBest S.taxonomy (pyNorm (pyStrip al))).2) :
    ensure_indicator_and_alias al S = createNewCanonical (pyStrip al) S := by
  unfold ensure_indicator_and_alias
  rw [if_neg h]
  dsimp only
  rw [hm]
  dsimp only
  rw [hb1]
  dsimp only
  rw [if_neg hsc]

/-- Resolution through creation when the fuzzy scan found nothing. -/
lemma ensure_create_none (al : String) (S : TaxState)
    (h : ¬ pyStrip al = "")
    (hm : lookupMap S.aliasMap (pyNorm (pyStrip al)) = none)
    (hb1 : (fuzzBest S.taxonomy (pyNorm (pyStrip al))).1 = none) :
    ensure_indicator_and_alias al S = createNewCanonical (pyStrip al) S := by
  unfold ensure_indicator_and_alias
  rw [if_neg h]
  dsimp only
  rw [hm]
  dsimp only
  rw [hb1]

end EnsureBranches

section GlueLemmas

/-- Setting an index to its own element changes nothing. -/
lemma set_getElem_self_list {α : Type} (l : List α) (i : ℕ) (hi : i < l.length) :
    l.set i (l[i]) = l := by
  apply List.ext_getElem
  · simp
  · intro n h1 h2
    rw [List.getElem_set]
    split_ifs with hn
    · subst hn; rfl
    · rfl

/-- Replacing only the aliases at an index leaves the canonical-name
image of the taxonomy unchanged. -/
lemma map_cname_set (tax : List TaxEntry) (i : ℕ) (hi : i < tax.length) (als : List String) :
    (tax.set i { tax[i] with aliases := als }).map (fun it => pyStrip it.canonicalName)
      = tax.map (fun it => pyStrip it.canonicalName) := by
  rw [List.map_set]
  have hi2 : i < (tax.map (fun it => pyStrip it.canonicalName)).length := by simpa using hi
  have h1 : pyStrip ({ tax[i] with aliases := als } : TaxEntry).canonicalName
      = (tax.map (fun it => pyStrip it.canonicalName))[i] := by
    simp
  rw [h1]
  exact set_getElem_self_list _ i hi2

/-- Search position depends only on the stripped canonical names. -/
lemma findIdx?_cname_congr (t1 t2 : List TaxEntry) (b : String)
    (h : t1.map (fun it => pyStrip it.canonicalName)
        = t2.map (fun it => pyStrip it.canonicalName)) :
    t1.findIdx? (fun it => pyLower (pyStrip it.canonicalName) = pyLower b)
      = t2.findIdx? (fun it => pyLower (pyStrip it.canonicalName) = pyLower b) := by
  induction t1 generalizing t2 with
  | nil =>
      cases t2 with
      | nil => rfl
      | cons y t2 => simp at h
  | cons x t1 ih =>
      cases t2 with
      | nil => simp at h
      | cons y t2 =>
          simp only [List.map_cons, List.cons.injEq] at h
          obtain ⟨hxy, ht⟩ := h
          rw [List.findIdx?_cons, List.findIdx?_cons, hxy]
          split_ifs with hp
          · rfl
          · rw [List.findIdx?_succ, List.findIdx?_succ, ih t2 ht]

/-- Search in a list extended by one matching entry, when every earlier
entry fails, lands on the appended entry. -/
lemma findIdx?_append_last (tax : List TaxEntry) (x : TaxEntry) (p : TaxEntry → Bool)
    (hold : ∀ it ∈ tax, p it = false) (hx : p x = true) :
    (tax ++ [x]).findIdx? p = some tax.length := by
  induction tax with
  | nil => simp [List.findIdx?_cons, hx]
  | cons y tax ih =>
      rw [List.cons_append, List.findIdx?_cons]
      rw [hold y (List.mem_cons_self y tax)]
      rw [if_neg (by simp)]
      rw [List.findIdx?_succ, ih (fun it hit => hold it (List.mem_cons_of_mem y hit))]
      simp

/-- `getD` at the length of the prefix returns the appended element. -/
lemma getD_append_length (tax : List TaxEntry) (x : TaxEntry) (d : TaxEntry) :
    (tax ++ [x]).getD tax.length d = x := by
  rw [List.getD_eq_getElem _ d (by simp)]
  simp

/-- Splitting a list at a valid index. -/
lemma list_split_at (l : List TaxEntry) (i : ℕ) (hi : i < l.length) :
    l = l.take i ++ l[i] :: l.drop (i + 1) := by
  conv_lhs => rw [← List.take_append_drop i l]
  rw [List.drop_eq_getElem_cons hi]

/-- The single-entry pair stream. -/
lemma buildStream_singleton (item : TaxEntry) :
    buildStream [item]
      = if pyStrip item.canonicalName = "" then []
        else (item.aliases ++ [pyStrip item.canonicalName]).map
          (fun al => (buildNorm al, title_case_indicator (pyStrip item.canonicalName))) := by
  unfold buildStream
  simp only [List.flatMap_cons, List.flatMap_nil]
  split_ifs <;> simp

/-- Equal lowercase forms force equal underlying lowercase data. -/
lemma data_map_lower_of_pyLower_eq {a b : String} (h : pyLower a = pyLower b) :
    a.data.map pyLowerChar = b.data.map pyLowerChar :=
  congrArg String.data h

/-- Equal lowercase forms force equal lengths, hence joint emptiness. -/
lemma ne_empty_of_pyLower_eq {a b : String} (h : pyLower a = pyLower b) (hb : b ≠ "") :
    a ≠ "" := by
  intro ha
  apply hb
  have hd := data_map_lower_of_pyLower_eq h
  rw [ha] at hd
  obtain ⟨db⟩ := b
  simp only [show (String.mk db).data = db from rfl] at hd
  have : db = [] := by
    have := congrArg List.length hd
    simpa using this.symm
  rw [this]

end GlueLemmas

end ValuePipeline

namespace ValuePipeline

/-! ### C5 development, part 6: the create-path second call -/

/-- Python `str.strip` is idempotent. -/
lemma pyStrip_idem (s : String) : pyStrip (pyStrip s) = pyStrip s := by
  show String.mk (pyStripList (pyStrip s).data) = pyStrip s
  rw [show (pyStrip s).data = pyStripList s.data from rfl, pyStripList_idem]
  rfl

/-- Python `str.title` of a stripped string is stripped. -/
lemma pyStrip_pyTitle_of_stripped (raw : String) (h : pyStrip raw = raw) :
    pyStrip (pyTitle raw) = pyTitle raw := by
  have hd : pyStripList raw.data = raw.data := congrArg String.data h
  show String.mk (pyStripList (pyTitle raw).data) = pyTitle raw
  rw [show (pyTitle raw).data = pyTitleGo raw.data false from rfl,
    pyStripList_pyTitleGo raw.data false hd]
  rfl

/-- Python `str.title` of a non-empty string is non-empty. -/
lemma pyTitle_ne_empty (s : String) (h : s ≠ "") : pyTitle s ≠ "" := by
  intro hh
  apply h
  have hlen := congrArg (fun t : String => t.data.length) hh
  simp only at hlen
  rw [show (pyTitle s).data = pyTitleGo s.data false from rfl, pyTitleGo_length] at hlen
  obtain ⟨d⟩ := s
  simp only [show (String.mk d).data = d from rfl] at hlen
  have hnil : d = [] := List.eq_nil_of_length_eq_zero (by simpa using hlen)
  rw [hnil]

/-- Best-name facts from the fuzzy scan. -/
lemma fuzzBest_some (tax : List TaxEntry) (key : String) (bn : String)
    (h : (fuzzBest tax key).1 = some bn) :
    ∃ it ∈ tax, bn = pyStrip it.canonicalName ∧ bn ≠ "" := by
  rcases fuzzFold_some key tax (none, -1) bn h with h1 | h2
  · simp at h1
  · exact h2

/-- After the create path, a second call on the new state returns either
the same new canonical or its title-cased form (stated over any state
whose taxonomy is the appended one and whose map is rebuilt from it). -/
lemma ensure_create_second_aux (p : String) (S S1 : TaxState)
    (hcons : S.aliasMap = rebuildAliasMap S.taxonomy)
    (hblank : ¬ pyStrip p = "")
    (hm : lookupMap S.aliasMap (pyNorm (pyStrip p)) = none)
    (hold : (fuzzBest S.taxonomy (pyNorm (pyStrip p))).2 < 88)
    (hS1tax : S1.taxonomy = S.taxonomy ++ [⟨pyTitle (pyStrip p), [pyStrip p]⟩])
    (hS1map : S1.aliasMap = rebuildAliasMap S1.taxonomy) :
    (ensure_indicator_and_alias p S1).1 = pyTitle (pyStrip p) ∨
    (ensure_indicator_and_alias p S1).1 = title_case_indicator (pyTitle (pyStrip p)) := by
  have hrs : pyStrip (pyStrip p) = pyStrip p := pyStrip_idem p
  have hNCstrip : pyStrip (pyTitle (pyStrip p)) = pyTitle (pyStrip p) :=
    pyStrip_pyTitle_of_stripped _ hrs
  have hNCne : pyTitle (pyStrip p) ≠ "" := pyTitle_ne_empty _ hblank
  have hlook_old : lookupMap (buildStream S.taxonomy) (pyNorm (pyStrip p)) = none := by
    rw [← lookup_rebuild, ← hcons]
    exact hm
  have hsing : buildStream [(⟨pyTitle (pyStrip p), [pyStrip p]⟩ : TaxEntry)]
      = [(buildNorm (pyStrip p), title_case_indicator (pyTitle (pyStrip p))),
         (buildNorm (pyStrip p), title_case_indicator (pyTitle (pyStrip p)))] := by
    rw [buildStream_singleton]
    dsimp only
    rw [hNCstrip, if_neg hNCne]
    simp [buildNorm_pyTitle]
  have hlk2 : lookupMap S1.aliasMap (pyNorm (pyStrip p))
      = if buildNorm (pyStrip p) = pyNorm (pyStrip p)
        then some (title_case_indicator (pyTitle (pyStrip p))) else none := by
    rw [hS1map, hS1tax, lookup_rebuild, buildStream_append, lookupMap_append,
      hlook_old, hsing]
    by_cases hk : buildNorm (pyStrip p) = pyNorm (pyStrip p)
    · rw [if_pos hk, lookupMap_cons_of_eq _ _ _ hk]
      rfl
    · rw [if_neg hk, lookupMap_cons_of_ne _ _ _ hk, lookupMap_cons_of_ne _ _ _ hk]
      rfl
  by_cases hk : buildNorm (pyStrip p) = pyNorm (pyStrip p)
  · right
    have hm1 : lookupMap S1.aliasMap (pyNorm (pyStrip p))
        = some (title_case_indicator (pyTitle (pyStrip p))) := by
      rw [hlk2, if_pos hk]
    rw [ensure_hit p S1 _ hblank hm1]
  · have hm1 : lookupMap S1.aliasMap (pyNorm (pyStrip p)) = none := by
      rw [hlk2, if_neg hk]
    have hfb2 : fuzzBest S1.taxonomy (pyNorm (pyStrip p))
        = if (fuzzBest S.taxonomy (pyNorm (pyStrip p))).2
              < fuzzRatio (pyNorm (pyStrip p)) (pyNorm (pyStrip p))
          then (some (pyTitle (pyStrip p)),
                fuzzRatio (pyNorm (pyStrip p)) (pyNorm (pyStrip p)))
          else fuzzBest S.taxonomy (pyNorm (pyStrip p)) := by
      rw [hS1tax]
      unfold fuzzBest
      rw [List.foldl_append]
      show fuzzStep (pyNorm (pyStrip p))
          (List.foldl (fuzzStep (pyNorm (pyStrip p))) (none, -1) S.taxonomy)
          ⟨pyTitle (pyStrip p), [pyStrip p]⟩ = _
      unfold fuzzStep
      dsimp only
      rw [hNCstrip, if_neg hNCne, pyNorm_pyTitle]
    by_cases himp : (fuzzBest S.taxonomy (pyNorm (pyStrip p))).2
        < fuzzRatio (pyNorm (pyStrip p)) (pyNorm (pyStrip p))
    · have hfb2v : fuzzBest S1.taxonomy (pyNorm (pyStrip p))
          = (some (pyTitle (pyStrip p)),
             fuzzRatio (pyNorm (pyStrip p)) (pyNorm (pyStrip p))) := by
        rw [hfb2, if_pos himp]
      by_cases hs2 : (88:ℚ) ≤ fuzzRatio (pyNorm (pyStrip p)) (pyNorm (pyStrip p))
      · left
        have hnopred : ∀ it ∈ S.taxonomy,
            ¬ (pyLower (pyStrip it.canonicalName) = pyLower (pyTitle (pyStrip p))) := by
          intro it hit heq
          have hcne2 : pyStrip it.canonicalName ≠ "" := ne_empty_of_pyLower_eq heq hNCne
          have hnormeq : pyNorm (pyStrip it.canonicalName) = pyNorm (pyTitle (pyStrip p)) :=
            pyNorm_congr _ _ (data_map_lower_of_pyLower_eq heq)
          have hb := fuzzFold_bound (pyNorm (pyStrip p)) S.taxonomy (none, -1) it hit hcne2
          rw [hnormeq, pyNorm_pyTitle] at hb
          exact absurd hb (not_le.mpr himp)
        have hidx2 : S1.taxonomy.findIdx?
            (fun it => pyLower (pyStrip it.canonicalName) = pyLower (pyTitle (pyStrip p)))
            = some S.taxonomy.length := by
          rw [hS1tax]
          apply findIdx?_append_last
          · intro it hit
            exact decide_eq_false (hnopred it hit)
          · simp [hNCstrip]
        have hal2 : pyStrip p ∈ (S1.taxonomy.getD S.taxonomy.length default).aliases := by
          rw [hS1tax, getD_append_length]
          exact List.mem_singleton.mpr rfl
        have hb1x : (fuzzBest S1.taxonomy (pyNorm (pyStrip p))).1
            = some (pyTitle (pyStrip p)) := by
          rw [hfb2v]
        have hscx : (88:ℚ) ≤ (fuzzBest S1.taxonomy (pyNorm (pyStrip p))).2 := by
          rw [hfb2v]
          exact hs2
        rw [ensure_fuzzy_known p S1 (pyTitle (pyStrip p)) S.taxonomy.length hblank hm1
          hb1x hscx hidx2 hal2]
      · left
        have hb1x : (fuzzBest S1.taxonomy (pyNorm (pyStrip p))).1
            = some (pyTitle (pyStrip p)) := by
          rw [hfb2v]
        have hscx : ¬ (88:ℚ) ≤ (fuzzBest S1.taxonomy (pyNorm (pyStrip p))).2 := by
          rw [hfb2v]
          exact hs2
        rw [ensure_create_low p S1 (pyTitle (pyStrip p)) hblank hm1 hb1x hscx]
        rfl
    · have hfb2v : fuzzBest S1.taxonomy (pyNorm (pyStrip p))
          = fuzzBest S.taxonomy (pyNorm (pyStrip p)) := by
        rw [hfb2, if_neg himp]
      rcases hob : (fuzzBest S.taxonomy (pyNorm (pyStrip p))).1 with _ | bn
      · left
        have hb1x : (fuzzBest S1.taxonomy (pyNorm (pyStrip p))).1 = none := by
          rw [hfb2v]
          exact hob
        rw [ensure_create_none p S1 hblank hm1 hb1x]
        rfl
      · left
        have hb1x : (fuzzBest S1.taxonomy (pyNorm (pyStrip p))).1 = some bn := by
          rw [hfb2v]
          exact hob
        have hscx : ¬ (88:ℚ) ≤ (fuzzBest S1.taxonomy (pyNorm (pyStrip p))).2 := by
          rw [hfb2v]
          exact not_le.mpr hold
        rw [ensure_create_low p S1 bn hblank hm1 hb1x hscx]
        rfl

end ValuePipeline

namespace ValuePipeline

/-! ### C5 development, part 7: the attach-path second call -/

/-- Splitting off the head of the pair stream. -/
lemma buildStream_cons (x : TaxEntry) (t : List TaxEntry) :
    buildStream (x :: t) = buildStream [x] ++ buildStream t := by
  unfold buildStream
  rw [List.flatMap_cons, List.flatMap_cons, List.flatMap_nil, List.append_nil]

/-- A left-biased choice is empty only when both sides are. -/
lemma option_or_eq_none {α : Type} {a b : Option α} (h : a.or b = none) :
    a = none ∧ b = none := by
  cases a <;> cases b <;> simp_all [Option.or]

/-- After the fuzzy-attach path, a second call on the new state returns
either the same best name or its title-cased form (stated over any
state whose taxonomy is the alias-extended one and whose map is rebuilt
from it). -/
lemma ensure_attach_second_aux (p : String) (S S1 : TaxState) (bn : String) (i : ℕ)
    (hcons : S.aliasMap = rebuildAliasMap S.taxonomy)
    (hblank : ¬ pyStrip p = "")
    (hm : lookupMap S.aliasMap (pyNorm (pyStrip p)) = none)
    (hb1 : (fuzzBest S.taxonomy (pyNorm (pyStrip p))).1 = some bn)
    (hsc : 88 ≤ (fuzzBest S.taxonomy (pyNorm (pyStrip p))).2)
    (hidx : S.taxonomy.findIdx?
        (fun it => pyLower (pyStrip it.canonicalName) = pyLower bn) = some i)
    (hS1tax : S1.taxonomy = S.taxonomy.set i
        { S.taxonomy.getD i default with
            aliases := (S.taxonomy.getD i default).aliases ++ [pyStrip p] })
    (hS1map : S1.aliasMap = rebuildAliasMap S1.taxonomy) :
    (ensure_indicator_and_alias p S1).1 = bn ∨
    (ensure_indicator_and_alias p S1).1 = title_case_indicator bn := by
  obtain ⟨hi, hpi, -⟩ := List.findIdx?_eq_some_iff_getElem.mp hidx
  have heq : pyLower (pyStrip (S.taxonomy[i]).canonicalName) = pyLower bn :=
    of_decide_eq_true hpi
  obtain ⟨itb, hitb, hbnitb, hbne⟩ := fuzzBest_some S.taxonomy _ bn hb1
  have hcne : pyStrip (S.taxonomy[i]).canonicalName ≠ "" :=
    ne_empty_of_pyLower_eq heq hbne
  have hgd : S.taxonomy.getD i default = S.taxonomy[i] :=
    List.getD_eq_getElem S.taxonomy default hi
  have hcn2 : S1.taxonomy.map (fun it => pyStrip it.canonicalName)
      = S.taxonomy.map (fun it => pyStrip it.canonicalName) := by
    rw [hS1tax, hgd]
    exact map_cname_set S.taxonomy i hi _
  have hlook_old : lookupMap (buildStream S.taxonomy) (pyNorm (pyStrip p)) = none := by
    rw [← lookup_rebuild, ← hcons]
    exact hm
  have hset : S1.taxonomy
      = S.taxonomy.take i
        ++ ({ S.taxonomy[i] with aliases := (S.taxonomy[i]).aliases ++ [pyStrip p] })
          :: S.taxonomy.drop (i + 1) := by
    rw [hS1tax, hgd, List.set_eq_take_append_cons_drop, if_pos hi]
  have htmp : lookupMap
      (buildStream (S.taxonomy.take i ++ S.taxonomy[i] :: S.taxonomy.drop (i + 1)))
      (pyNorm (pyStrip p)) = none := by
    rw [← list_split_at S.taxonomy i hi]
    exact hlook_old
  rw [buildStream_append, buildStream_cons, lookupMap_append, lookupMap_append] at htmp
  obtain ⟨hA, htmp2⟩ := option_or_eq_none htmp
  obtain ⟨hX, hB⟩ := option_or_eq_none htmp2
  rw [buildStream_singleton, if_neg hcne, List.map_append, lookupMap_append] at hX
  obtain ⟨hXa, hXc⟩ := option_or_eq_none hX
  have hlk2 : lookupMap S1.aliasMap (pyNorm (pyStrip p))
      = if buildNorm (pyStrip p) = pyNorm (pyStrip p)
        then some (title_case_indicator (pyStrip (S.taxonomy[i]).canonicalName))
        else none := by
    rw [hS1map, lookup_rebuild, hset, buildStream_append, buildStream_cons,
      lookupMap_append, lookupMap_append, hA, hB]
    rw [buildStream_singleton]
    dsimp only
    rw [if_neg hcne]
    rw [List.map_append, List.map_append, lookupMap_append, lookupMap_append, hXa, hXc]
    simp only [List.map_cons, List.map_nil]
    by_cases hk : buildNorm (pyStrip p) = pyNorm (pyStrip p)
    · rw [if_pos hk, lookupMap_cons_of_eq _ _ _ hk]
      rfl
    · rw [if_neg hk, lookupMap_cons_of_ne _ _ _ hk]
      rfl
  by_cases hk : buildNorm (pyStrip p) = pyNorm (pyStrip p)
  · right
    have hm1 : lookupMap S1.aliasMap (pyNorm (pyStrip p))
        = some (title_case_indicator (pyStrip (S.taxonomy[i]).canonicalName)) := by
      rw [hlk2, if_pos hk]
    rw [ensure_hit p S1 _ hblank hm1]
    exact title_case_indicator_congr _ _ (data_map_lower_of_pyLower_eq heq)
  · left
    have hm1 : lookupMap S1.aliasMap (pyNorm (pyStrip p)) = none := by
      rw [hlk2, if_neg hk]
    have hfb2v : fuzzBest S1.taxonomy (pyNorm (pyStrip p))
        = fuzzBest S.taxonomy (pyNorm (pyStrip p)) := by
      unfold fuzzBest
      exact fuzzFold_congr (pyNorm (pyStrip p)) S1.taxonomy S.taxonomy (none, -1) hcn2
    have hidx2 : S1.taxonomy.findIdx?
        (fun it => pyLower (pyStrip it.canonicalName) = pyLower bn) = some i := by
      rw [findIdx?_cname_congr S1.taxonomy S.taxonomy bn hcn2]
      exact hidx
    have hi1 : i < S1.taxonomy.length := by
      rw [hS1tax]
      simpa using hi
    have hi2 : i < (S.taxonomy.set i
        { S.taxonomy[i] with aliases := (S.taxonomy[i]).aliases ++ [pyStrip p] }).length := by
      simpa using hi
    have hgd1 : S1.taxonomy.getD i default
        = { S.taxonomy[i] with aliases := (S.taxonomy[i]).aliases ++ [pyStrip p] } := by
      rw [List.getD_eq_getElem S1.taxonomy default hi1]
      have hx : S1.taxonomy[i]
          = (S.taxonomy.set i
              { S.taxonomy[i] with aliases := (S.taxonomy[i]).aliases ++ [pyStrip p] })[i] := by
        congr 1
        rw [hS1tax, hgd]
      rw [hx]
      exact List.getElem_set_self _
    have hal1 : pyStrip p ∈ (S1.taxonomy.getD i default).aliases := by
      rw [hgd1]
      exact List.mem_append_right _ (List.mem_singleton.mpr rfl)
    rw [ensure_fuzzy_known p S1 bn i hblank hm1
      (by rw [hfb2v]; exact hb1) (by rw [hfb2v]; exact hsc) hidx2 hal1]

end ValuePipeline

namespace ValuePipeline

/-- Claim C5 amended: from any state whose alias map is the builder
output for its taxonomy, two consecutive resolutions of the same phrase
agree up to title-casing: the second call returns either exactly the
canonical returned by the first call, or its title-cased form (the
builder stores `title_case_indicator` of the canonical, so a phrase
resolved by fuzzy attachment or creation can come back title-cased on
the next call, as the counterexample exhibits; no third behaviour is
possible). -/
theorem C5_resolution_stable_up_to_title_case (p : String) (S : TaxState)
    (hcons : S.aliasMap = rebuildAliasMap S.taxonomy) :
    (ensure_indicator_and_alias p (ensure_indicator_and_alias p S).2.2).1
      = (ensure_indicator_and_alias p S).1 ∨
    (ensure_indicator_and_alias p (ensure_indicator_and_alias p S).2.2).1
      = title_case_indicator (ensure_indicator_and_alias p S).1 := by
  by_cases hblank : pyStrip p = ""
  · left
    rw [ensure_blank p S hblank]
    rw [show (("", false, S) : String × Bool × TaxState).2.2 = S from rfl]
    rw [ensure_blank p S hblank]
  · rcases hm : lookupMap S.aliasMap (pyNorm (pyStrip p)) with _ | c
    · rcases hb1 : (fuzzBest S.taxonomy (pyNorm (pyStrip p))).1 with _ | bn
      · have hfn : fuzzBest S.taxonomy (pyNorm (pyStrip p)) = (none, -1) :=
          fuzzFold_none _ _ _ hb1
        have hold : (fuzzBest S.taxonomy (pyNorm (pyStrip p))).2 < 88 := by
          rw [hfn]
          norm_num
        rw [ensure_create_none p S hblank hm hb1]
        rcases ensure_create_second_aux p S (createNewCanonical (pyStrip p) S).2.2
            hcons hblank hm hold rfl rfl with h | h
        · exact Or.inl h
        · exact Or.inr h
      · by_cases hsc : (88:ℚ) ≤ (fuzzBest S.taxonomy (pyNorm (pyStrip p))).2
        · rcases hidx : S.taxonomy.findIdx?
              (fun it => pyLower (pyStrip it.canonicalName) = pyLower bn) with _ | i
          · exfalso
            obtain ⟨it, hit, hbn, hbne⟩ := fuzzBest_some S.taxonomy _ bn hb1
            rw [List.findIdx?_eq_none_iff] at hidx
            have hfalse := hidx it hit
            rw [hbn] at hfalse
            simp at hfalse
          · by_cases hal : pyStrip p ∈ (S.taxonomy.getD i default).aliases
            · left
              rw [ensure_fuzzy_known p S bn i hblank hm hb1 hsc hidx hal]
              rw [show ((bn, false, S) : String × Bool × TaxState).2.2 = S from rfl]
              rw [ensure_fuzzy_known p S bn i hblank hm hb1 hsc hidx hal]
            · rw [ensure_fuzzy_attach p S bn i hblank hm hb1 hsc hidx hal]
              rcases ensure_attach_second_aux p S
                  ⟨S.taxonomy.set i
                    { S.taxonomy.getD i default with
                        aliases := (S.taxonomy.getD i default).aliases ++ [pyStrip p] },
                   rebuildAliasMap
                    (S.taxonomy.set i
                      { S.taxonomy.getD i default with
                          aliases := (S.taxonomy.getD i default).aliases ++ [pyStrip p] })⟩
                  bn i hcons hblank hm hb1 hsc hidx rfl rfl with h | h
              · exact Or.inl h
              · exact Or.inr h
        · have hold : (fuzzBest S.taxonomy (pyNorm (pyStrip p))).2 < 88 := not_le.mp hsc
          rw [ensure_create_low p S bn hblank hm hb1 hsc]
          rcases ensure_create_second_aux p S (createNewCanonical (pyStrip p) S).2.2
              hcons hblank hm hold rfl rfl with h | h
          · exact Or.inl h
          · exact Or.inr h
    · left
      rw [ensure_hit p S c hblank hm]
      rw [show ((c, false, S) : String × Bool × TaxState).2.2 = S from rfl]
      rw [ensure_hit p S c hblank hm]

/-- Witness for the amended C5 theorem at the empty consistent state and
the phrase `gdp growth`. -/
theorem C5_resolution_stable_witness :
    (ensure_indicator_and_alias "gdp growth"
        (ensure_indicator_and_alias "gdp growth" ⟨[], []⟩).2.2).1
      = (ensure_indicator_and_alias "gdp growth" ⟨[], []⟩).1 ∨
    (ensure_indicator_and_alias "gdp growth"
        (ensure_indicator_and_alias "gdp growth" ⟨[], []⟩).2.2).1
      = title_case_indicator (ensure_indicator_and_alias "gdp growth" ⟨[], []⟩).1 :=
  C5_resolution_stable_up_to_title_case "gdp growth" ⟨[], []⟩ rfl

end ValuePipeline
